import Mathlib

/-!
Verification of the wyzie-lib subtitle library.

The TypeScript source (src/funcs.ts) is shallowly embedded here:
strings are `List Char`, the regular expressions of `parseToVTT` are
translated into explicit character scanners with the same semantics,
and the two network-calling operations (`fetchSubtitles`,
`searchSubtitles`) are modelled as pure functions over explicit fetch
outcomes.
-/

namespace WyzieLib

/-! ### Character classes

`isJsWs` is the JavaScript whitespace class used by `String.prototype.trim`
and by the regex class `\s` (WhiteSpace and LineTerminator code points).
`isDig` is the regex class `\d`. -/

def isDig (c : Char) : Bool :=
  decide (48 ≤ c.toNat ∧ c.toNat ≤ 57)

def isJsWs (c : Char) : Bool :=
  decide (c.toNat = 32 ∨ c.toNat = 9 ∨ c.toNat = 10 ∨ c.toNat = 13 ∨ c.toNat = 11 ∨
    c.toNat = 12 ∨ c.toNat = 160 ∨ c.toNat = 5760 ∨ (8192 ≤ c.toNat ∧ c.toNat ≤ 8202) ∨
    c.toNat = 8232 ∨ c.toNat = 8233 ∨ c.toNat = 8239 ∨ c.toNat = 8287 ∨
    c.toNat = 12288 ∨ c.toNat = 65279)

/-- JavaScript `String.prototype.trim`: drop whitespace from both ends. -/
def trimWs (l : List Char) : List Char :=
  ((l.dropWhile isJsWs).reverse.dropWhile isJsWs).reverse

/-! ### Line-ending normalization

`content.replace(/\r\n/g, "\n").replace(/\r/g, "\n")`. -/

def crlfToLf : List Char → List Char
  | '\r' :: '\n' :: rest => '\n' :: crlfToLf rest
  | c :: rest => c :: crlfToLf rest
  | [] => []

def crToLf (l : List Char) : List Char :=
  l.map (fun c => if c = '\r' then '\n' else c)

def fixEol (l : List Char) : List Char :=
  crToLf (crlfToLf l)

/-! ### Block segmentation

`normalizedContent.split(/\n\n+/)`: split on each maximal run of two or
more consecutive newlines.  Implemented as a three-state scanner
(`norm`: inside a segment, `oneNl`: one pending newline that is literal
unless another newline follows, `inSep`: consuming a separator run). -/

inductive SbSt where
  | norm
  | oneNl
  | inSep
deriving DecidableEq

/-- Prepend a character to the first segment of a segment list. -/
def consHead (c : Char) : List (List Char) → List (List Char)
  | [] => [[c]]
  | s :: ss => (c :: s) :: ss

def sbGo : SbSt → List Char → List (List Char)
  | .norm, [] => [[]]
  | .oneNl, [] => [['\n']]
  | .inSep, [] => [[], []]
  | .norm, c :: rest =>
    if c = '\n' then sbGo .oneNl rest else consHead c (sbGo .norm rest)
  | .oneNl, c :: rest =>
    if c = '\n' then sbGo .inSep rest
    else consHead '\n' (consHead c (sbGo .norm rest))
  | .inSep, c :: rest =>
    if c = '\n' then sbGo .inSep rest else [] :: consHead c (sbGo .norm rest)

def splitBlocks (l : List Char) : List (List Char) :=
  sbGo .norm l

/-! ### Line splitting and joining

`block.split("\n")` and `textLines.join("\n")`. -/

def splitLines : List Char → List (List Char)
  | [] => [[]]
  | c :: rest =>
    if c = '\n' then [] :: splitLines rest else consHead c (splitLines rest)

def joinLines : List (List Char) → List Char
  | [] => []
  | l :: ls =>
    match ls with
    | [] => l
    | _ :: _ => l ++ '\n' :: joinLines ls

/-! ### The timestamp matcher

`/^\d{1,2}:\d{2}(?::\d{2})?[,\.]\d{3}(?:\.|,)?\s*-->\s*\d{1,2}:\d{2}(?::\d{2})?[,\.]\d{3}(?:\.|,)?$/`

The regex is deterministic on every input (whenever a greedy optional
group consumes a character, no continuation could succeed without it),
so it is faithfully implemented as a straight-line scanner. -/

/-- `\d{1,2}` followed by a mandatory next token: greedily take one or two digits. -/
def pD12 : List Char → Option (List Char)
  | [] => none
  | c :: rest =>
    if isDig c then
      match rest with
      | c2 :: rest2 => if isDig c2 then some rest2 else some rest
      | [] => some []
    else none

/-- `\d{2}`: exactly two digits. -/
def pD2 : List Char → Option (List Char)
  | c1 :: c2 :: rest => if isDig c1 && isDig c2 then some rest else none
  | _ => none

/-- `\d{3}`: exactly three digits. -/
def pD3 : List Char → Option (List Char)
  | c1 :: c2 :: c3 :: rest => if isDig c1 && isDig c2 && isDig c3 then some rest else none
  | _ => none

/-- A single mandatory character. -/
def pCh (a : Char) : List Char → Option (List Char)
  | c :: rest => if c = a then some rest else none
  | [] => none

/-- The optional seconds group `(?::\d{2})?`: when a colon follows, two
digits are mandatory (no continuation could match a colon otherwise). -/
def pOptSecs (l : List Char) : Option (List Char) :=
  match pCh ':' l with
  | some l2 => pD2 l2
  | none => some l

/-- The mandatory fractional separator `[,\.]`. -/
def pSep : List Char → Option (List Char)
  | c :: rest => if c = ',' || c = '.' then some rest else none
  | [] => none

/-- The optional trailing separator `(?:\.|,)?` (greedy; consuming it can
never make the continuation fail where skipping it would succeed). -/
def pOptSep : List Char → List Char
  | c :: rest => if c = ',' || c = '.' then rest else c :: rest
  | [] => []

/-- One time code `\d{1,2}:\d{2}(?::\d{2})?[,\.]\d{3}(?:\.|,)?`. -/
def pTime (l : List Char) : Option (List Char) :=
  (pD12 l).bind fun l =>
  (pCh ':' l).bind fun l =>
  (pD2 l).bind fun l =>
  (pOptSecs l).bind fun l =>
  (pSep l).bind fun l =>
  (pD3 l).bind fun l =>
  some (pOptSep l)

/-- The anchored timestamp-pair test applied by `lines.findIndex`. -/
def matchTs (l : List Char) : Bool :=
  match pTime l with
  | none => false
  | some l1 =>
    match l1.dropWhile isJsWs with
    | '-' :: '-' :: '>' :: l2 =>
      match pTime (l2.dropWhile isJsWs) with
      | some [] => true
      | _ => false
    | _ => false

/-! ### Timestamp-line normalization

The three `replace` calls applied to the matched timestamp line. -/

/-- The lookahead `(?=\s*-->)`. -/
def arrowAhead (l : List Char) : Bool :=
  match l.dropWhile isJsWs with
  | '-' :: '-' :: '>' :: _ => true
  | _ => false

/-- `.replace(/[,.](?=\s*-->)/, "")`: delete the first `,` or `.` that is
followed by optional whitespace and the arrow. -/
def removeSepBeforeArrow : List Char → List Char
  | [] => []
  | c :: rest =>
    if (c = ',' || c = '.') && arrowAhead rest then rest
    else c :: removeSepBeforeArrow rest

/-- `.replace(/[,.]$/, "")`: delete a trailing `,` or `.`. -/
def removeTrailingSep (l : List Char) : List Char :=
  match l.getLast? with
  | some c => if c = ',' || c = '.' then l.dropLast else l
  | none => l

/-- `.replace(/,(\d{3})/g, ".$1")`: globally turn a comma followed by three
digits into a dot, resuming the scan after the three digits. -/
def commaToDot : List Char → List Char
  | ',' :: d1 :: d2 :: d3 :: rest =>
    if isDig d1 && isDig d2 && isDig d3 then
      '.' :: d1 :: d2 :: d3 :: commaToDot rest
    else ',' :: commaToDot (d1 :: d2 :: d3 :: rest)
  | c :: rest => c :: commaToDot rest
  | [] => []

def normalizeTsLine (l : List Char) : List Char :=
  commaToDot (removeTrailingSep (removeSepBeforeArrow l))

/-! ### Per-block processing -/

/-- `/^\d+$/`: a non-empty all-digits line (a subtitle sequence number). -/
def isAllDigits (l : List Char) : Bool :=
  !l.isEmpty && l.all isDig

/-- `block.split("\n").map(trim).filter(nonempty)`. -/
def cleanLines (b : List Char) : List (List Char) :=
  ((splitLines b).map trimWs).filter (fun l => !l.isEmpty)

/-- `lines.findIndex(matchTs)` together with `lines.slice(i + 1)`:
the first matching line and the lines strictly after it. -/
def findTs : List (List Char) → Option (List Char × List (List Char))
  | [] => none
  | l :: rest => if matchTs l then some (l, rest) else findTs rest

/-- The body of the block loop of `parseToVTT`: `none` when the block is
skipped, otherwise the emitted cue text (timestamp line, newline, text
lines joined by newlines; the caller appends the blank separator). -/
def emitBlock (b : List Char) : Option (List Char) :=
  let lines := cleanLines b
  if lines.length < 2 then none
  else
    match findTs lines with
    | none => none
    | some (ts, after) =>
      let textLines := (after.filter (fun l => !isAllDigits l)).filter (fun l => !l.isEmpty)
      if textLines.isEmpty then none
      else some (normalizeTsLine ts ++ '\n' :: joinLines textLines)

/-! ### Final cleanup

`vtt.replace(/\n{3,}/g, "\n\n")`: collapse runs of three or more newlines
to two.  Scanner with a pending-newline counter capped at three. -/

def pendOut : Nat → List Char
  | 0 => []
  | 1 => ['\n']
  | _ => ['\n', '\n']

def clGo (p : Nat) : List Char → List Char
  | [] => pendOut p
  | c :: rest =>
    if c = '\n' then clGo (min (p + 1) 3) rest
    else pendOut p ++ c :: clGo 0 rest

def collapseNl (l : List Char) : List Char :=
  clGo 0 l

/-! ### The normalizer itself -/

/-- The characters of the literal `"WEBVTT\n\n"` the accumulator starts with. -/
def vttHeader : List Char := ['W', 'E', 'B', 'V', 'T', 'T', '\n', '\n']

/-- The pure text transformation performed by `parseToVTT` on the fetched
body: fix line endings, trim, split into blocks, process each block in
order, then collapse newline runs, trim, and terminate with a blank line. -/
def parseToVTTtext (content : List Char) : List Char :=
  let blocks := splitBlocks (trimWs (fixEol content))
  let vtt := blocks.foldl
    (fun acc b =>
      match emitBlock b with
      | none => acc
      | some c => acc ++ c ++ ['\n', '\n'])
    vttHeader
  trimWs (collapseNl vtt) ++ ['\n', '\n']

def parseToVTT (s : String) : String :=
  String.mk (parseToVTTtext s.data)

/-! ### Spec-side timestamp normalization (for refinement claims)

Modelled from the spec, section 4.2 step 3e: the same first two removal
steps, then "convert every remaining comma used as a fractional-seconds
separator (pattern: comma followed by exactly 3 digits) to a dot".
Differs from `commaToDot` only in requiring that no fourth digit follow. -/

def commaToDotExact : List Char → List Char
  | ',' :: d1 :: d2 :: d3 :: rest =>
    if isDig d1 && isDig d2 && isDig d3 && !(rest.head?.elim false isDig) then
      '.' :: d1 :: d2 :: d3 :: commaToDotExact rest
    else ',' :: commaToDotExact (d1 :: d2 :: d3 :: rest)
  | c :: rest => c :: commaToDotExact rest
  | [] => []

def specNormalizeTsLine (l : List Char) : List Char :=
  commaToDotExact (removeTrailingSep (removeSepBeforeArrow l))

/-! ### Structural predicates used by the invariants -/

/-- No two adjacent newlines anywhere. -/
def noDouble : List Char → Bool
  | [] => true
  | c :: rest => !(c = '\n' && rest.head? = some '\n') && noDouble rest

/-- No three adjacent newlines anywhere. -/
def noTriple : List Char → Bool
  | [] => true
  | c :: rest =>
    !(c = '\n' && rest.head? = some '\n' && rest.tail.head? = some '\n') && noTriple rest

/-- Every comma is followed by at most three consecutive digits. -/
def noComma4 : List Char → Bool
  | [] => true
  | c :: rest =>
    (!(c = ',') || decide ((rest.takeWhile isDig).length ≤ 3)) && noComma4 rest

/-- The assembled text of a list of emitted cues: each cue followed by a
blank-line separator. -/
def chunksText : List (List Char) → List Char
  | [] => []
  | c :: cs => c ++ '\n' :: '\n' :: chunksText cs

/-- The characters of the header word alone. -/
def wChars : List Char := ['W', 'E', 'B', 'V', 'T', 'T']

/-- Invariant of every cue text emitted by the block loop: starts with a
digit, has no adjacent newlines, ends with a non-whitespace character. -/
def chunkOk (c : List Char) : Prop :=
  (∃ d t, c = d :: t ∧ isDig d = true) ∧ noDouble c = true ∧
    ∃ e, c.getLast? = some e ∧ isJsWs e = false

/-- A block of a trimmed canonical document: non-empty, no adjacent
newlines, and no newline at either end. -/
def blockNice (x : List Char) : Prop :=
  x ≠ [] ∧ noDouble x = true ∧ (∀ d, x.head? = some d → ¬(d = '\n')) ∧
    x.getLast? ≠ some '\n'

/-- Blocks joined by one blank-line separator (no trailing separator):
the shape of a trimmed canonical document. -/
def sepBlocks : List (List Char) → List Char
  | [] => []
  | b :: bs =>
    match bs with
    | [] => b
    | _ :: _ => b ++ '\n' :: '\n' :: sepBlocks bs

/-! ### The canonical VttDocument data model (spec section 3)

A canonical document is the literal `WEBVTT` header line, a blank line,
then cues separated by exactly one blank line and ending with exactly one
blank line.  Each cue is a dot-separated timestamp line
`H:MM:SS.mmm --> H:MM:SS.mmm` (one- or two-digit hour) followed by one or
more non-empty text lines.  A line of a text document contains no line
terminator, and a canonical line carries no leading or trailing
whitespace. -/

structure VttTime where
  hh : List Char
  mm : List Char
  ss : List Char
  ms : List Char
deriving DecidableEq

def VttTime.wf (t : VttTime) : Bool :=
  (t.hh.length = 1 || t.hh.length = 2) && t.hh.all isDig &&
  t.mm.length = 2 && t.mm.all isDig &&
  t.ss.length = 2 && t.ss.all isDig &&
  t.ms.length = 3 && t.ms.all isDig

def VttTime.render (t : VttTime) : List Char :=
  t.hh ++ ':' :: t.mm ++ ':' :: t.ss ++ '.' :: t.ms

structure VttCue where
  tsFrom : VttTime
  tsTo : VttTime
  text : List (List Char)
deriving DecidableEq

/-- A canonical cue text line: non-empty, no line terminator, and no
leading or trailing whitespace. -/
def canonicalLine (l : List Char) : Bool :=
  match l.head?, l.getLast? with
  | some a, some b =>
    !isJsWs a && !isJsWs b && l.all (fun c => !(c = '\n') && !(c = '\r'))
  | _, _ => false

def VttCue.tsLine (c : VttCue) : List Char :=
  c.tsFrom.render ++ ' ' :: '-' :: '-' :: '>' :: ' ' :: c.tsTo.render

def VttCue.body (c : VttCue) : List Char :=
  c.tsLine ++ '\n' :: joinLines c.text

/-- Canonical per the data model of spec section 3. -/
def VttCue.wf (c : VttCue) : Bool :=
  c.tsFrom.wf && c.tsTo.wf && !c.text.isEmpty && c.text.all canonicalLine

/-- Canonical and, in addition, no text line consisting solely of digits
(such a line is removed by the normalizer's sequence-number filter). -/
def VttCue.wfNoDigitLines (c : VttCue) : Bool :=
  c.wf && c.text.all (fun l => !isAllDigits l)

def renderDoc (cues : List VttCue) : List Char :=
  vttHeader ++ chunksText (cues.map VttCue.body)

/-! ### The search client (constructUrl / fetchSubtitles / searchSubtitles)

The data shapes of src/types.ts, with the network boundary made explicit:
each `fetch` is an oracle value of type `FetchResult` describing what the
transport returned, and errors are their display messages. -/

structure SubtitleData where
  id : String
  url : String
  format : String
  isHearingImpaired : Bool
  flagUrl : String
  media : String
  display : String
  language : String
deriving DecidableEq

structure SearchSubtitlesParams where
  tmdb_id : Option Int := none
  imdb_id : Option Int := none
  season : Option Int := none
  episode : Option Int := none
  language : Option String := none
  format : Option String := none
  hi : Option Bool := none
  parseVTT : Option Bool := none
deriving DecidableEq

/-- What one `fetch` call produced: a 2xx response with a successfully
deserialized body, a non-2xx status, a 2xx response whose body failed to
deserialize (the rejection's message), or a transport error (DNS failure,
timeout, ...; its display message). -/
inductive FetchResult (α : Type) where
  | success : α → FetchResult α
  | httpError : Nat → FetchResult α
  | badBody : String → FetchResult α
  | transportError : String → FetchResult α
deriving DecidableEq

inductive SearchOutcome where
  | plain : List SubtitleData → SearchOutcome
  | withVtt : List SubtitleData → String → SearchOutcome
deriving DecidableEq

/-- `String(tmdb_id || imdb_id)`: JavaScript `||` takes the second operand
when the first is falsy (absent or zero), and `String(undefined)` is the
literal text `"undefined"`. -/
def idParamValue (tmdb imdb : Option Int) : String :=
  match (if tmdb.elim false (fun n => !(n = 0)) then tmdb else imdb) with
  | some n => toString n
  | none => "undefined"

/-- The query-parameter list of `constructUrl`: entries appended in object
insertion order, skipping the ones whose value is `undefined`.  Numbers and
booleans are stringified by `URLSearchParams.append`. -/
def constructUrlQuery (p : SearchSubtitlesParams) : List (String × String) :=
  [("id", some (idParamValue p.tmdb_id p.imdb_id)),
   ("season", p.season.map toString),
   ("episode", p.episode.map toString),
   ("language", p.language),
   ("format", p.format),
   ("hi", p.hi.map (fun b => if b then "true" else "false"))].filterMap
    (fun kv => kv.2.map (fun v => (kv.1, v)))

/-- `fetchSubtitles`: throws `HTTP error! status: S` on a non-2xx response,
propagates `response.json()` rejections and transport errors unchanged. -/
def fetchSubtitlesM (r : FetchResult (List SubtitleData)) :
    Except String (List SubtitleData) :=
  match r with
  | .success a => .ok a
  | .httpError s => .error ("HTTP error! status: " ++ toString s)
  | .badBody e => .error e
  | .transportError e => .error e

/-- `parseToVTT`: throws `Failed to fetch subtitle content: S` on a non-2xx
response, otherwise normalizes the body; the catch block re-throws every
error unchanged. -/
def parseToVTTM (r : FetchResult String) : Except String String :=
  match r with
  | .success body => .ok (parseToVTT body)
  | .httpError s => .error ("Failed to fetch subtitle content: " ++ toString s)
  | .badBody e => .error e
  | .transportError e => .error e

/-- `searchSubtitles`: fetch the descriptor list; when `parseVTT` is truthy
and the list is non-empty, also fetch and normalize the first descriptor's
content; any error is re-thrown as `Error fetching subtitles: <error>`. -/
def searchSubtitlesM (p : SearchSubtitlesParams)
    (searchR : FetchResult (List SubtitleData)) (contentR : FetchResult String) :
    Except String SearchOutcome :=
  let run : Except String SearchOutcome :=
    match fetchSubtitlesM searchR with
    | .error e => .error e
    | .ok subtitles =>
      if p.parseVTT = some true && decide (0 < subtitles.length) then
        match parseToVTTM contentR with
        | .error e => .error e
        | .ok vttContent => .ok (.withVtt subtitles vttContent)
      else .ok (.plain subtitles)
  match run with
  | .ok r => .ok r
  | .error e => .error ("Error fetching subtitles: " ++ e)

/-! ### Concrete inputs used by the claim theorems -/

def exSrtInput : String :=
  "1\n00:02:05,872 --> 00:02:08,024\nAll right, team,\nstay in sight.\n\n2\n00:02:08,124 --> 00:02:10,484\nLet\x27s go."

def exVttOutput : String :=
  "WEBVTT\n\n00:02:05.872 --> 00:02:08.024\nAll right, team,\nstay in sight.\n\n00:02:08.124 --> 00:02:10.484\nLet\x27s go.\n\n"

/-- Canonical per the spec's data model (the header, one cue with two
non-empty text lines, one trailing blank line, no trailing sequence-number
line), but with a middle text line consisting solely of digits. -/
def exCanonicalDigitLine : String :=
  "WEBVTT\n\n00:00:01.000 --> 00:00:02.000\n2013\nHello there\n\n"

def exDigitLineDropped : String :=
  "WEBVTT\n\n00:00:01.000 --> 00:00:02.000\nHello there\n\n"

/-- A WebVTT timestamp line carrying cue settings after the time codes. -/
def exSettingsLine : String := "00:00:01.000 --> 00:00:02.000 align:start"

def exSettingsBlock : String := "00:00:01.000 --> 00:00:02.000 align:start\nHello world"

def exNoValidation : String := "25:99:99.999 --> 26:00:00.000"

def exCommaLine : String := "00:02:05,872 --> 00:02:08,024"

def exNoTsInput : String := "hello world\nfoo bar"

def exCanonicalCue : VttCue :=
  ⟨⟨['0'], ['0', '0'], ['0', '1'], ['0', '0', '0']⟩,
   ⟨['0'], ['0', '0'], ['0', '2'], ['0', '0', '0']⟩,
   [['H', 'i']]⟩

def sampleSub : SubtitleData :=
  ⟨"42", "https://example.org/a.srt", "srt", false, "", "movie", "English", "en"⟩

def vttTrueParams : SearchSubtitlesParams :=
  { tmdb_id := some 286217, parseVTT := some true }

/-! ## Helper lemmas: character classes -/

theorem ne_of_pred_mismatch {p : Char → Bool} {c d : Char}
    (h : p c = true) (h2 : p d = false) : c ≠ d := by
  intro e
  rw [e, h2] at h
  cases h

theorem isDig_not_ws {c : Char} (h : isDig c = true) : isJsWs c = false := by
  simp only [isDig, decide_eq_true_eq] at h
  simp only [isJsWs, decide_eq_false_iff_not]
  omega

theorem ws_not_isDig {c : Char} (h : isJsWs c = true) : isDig c = false := by
  simp only [isJsWs, decide_eq_true_eq] at h
  simp only [isDig, decide_eq_false_iff_not]
  omega

theorem isDig_ne_comma {c : Char} (h : isDig c = true) : c ≠ ',' :=
  ne_of_pred_mismatch h (by decide)

theorem isDig_ne_dot {c : Char} (h : isDig c = true) : c ≠ '.' :=
  ne_of_pred_mismatch h (by decide)

theorem isDig_ne_colon {c : Char} (h : isDig c = true) : c ≠ ':' :=
  ne_of_pred_mismatch h (by decide)

theorem isDig_ne_nl {c : Char} (h : isDig c = true) : c ≠ '\n' :=
  ne_of_pred_mismatch h (by decide)

theorem isDig_ne_dash {c : Char} (h : isDig c = true) : c ≠ '-' :=
  ne_of_pred_mismatch h (by decide)

theorem not_ws_ne_nl {c : Char} (h : isJsWs c = false) : c ≠ '\n' := by
  intro e
  rw [e] at h
  cases h

theorem ws_ne_comma {c : Char} (h : isJsWs c = true) : c ≠ ',' :=
  ne_of_pred_mismatch h (by decide)

theorem ws_ne_dot {c : Char} (h : isJsWs c = true) : c ≠ '.' :=
  ne_of_pred_mismatch h (by decide)

/-! ## Helper lemmas: dropWhile, trim -/

theorem dropWhile_eq_self_of_head {α : Type} {p : α → Bool} {l : List α}
    (h : ∀ a, l.head? = some a → p a = false) : l.dropWhile p = l := by
  cases l with
  | nil => rfl
  | cons a t => simp [List.dropWhile_cons, h a rfl]

theorem head?_dropWhile_not {α : Type} {p : α → Bool} :
    ∀ {l : List α} {a : α}, (l.dropWhile p).head? = some a → p a = false := by
  intro l
  induction l with
  | nil => intro a h; cases h
  | cons b t ih =>
    intro a h
    rw [List.dropWhile_cons] at h
    by_cases hb : p b
    · rw [if_pos hb] at h; exact ih h
    · rw [if_neg hb] at h
      cases h
      simpa using hb

theorem getLast?_of_suffix {α : Type} {l₁ l₂ : List α}
    (h : l₁ <:+ l₂) (hne : l₁ ≠ []) : l₂.getLast? = l₁.getLast? := by
  obtain ⟨pre, rfl⟩ := h
  rw [List.getLast?_append_of_ne_nil _ hne]

theorem getLast?_dropWhile {α : Type} {p : α → Bool} {l : List α}
    (h : l.dropWhile p ≠ []) : (l.dropWhile p).getLast? = l.getLast? :=
  (getLast?_of_suffix (List.dropWhile_suffix p) h).symm

theorem trimWs_eq_self {l : List Char}
    (h1 : ∀ a, l.head? = some a → isJsWs a = false)
    (h2 : ∀ a, l.getLast? = some a → isJsWs a = false) : trimWs l = l := by
  unfold trimWs
  rw [dropWhile_eq_self_of_head h1]
  rw [dropWhile_eq_self_of_head (by simpa using h2)]
  exact l.reverse_reverse

theorem trimWs_append_nl2 {b : List Char} {w e : Char}
    (hw : b.head? = some w) (hww : isJsWs w = false)
    (he : b.getLast? = some e) (hee : isJsWs e = false) :
    trimWs (b ++ ['\n', '\n']) = b := by
  unfold trimWs
  have hfront : (b ++ ['\n', '\n']).dropWhile isJsWs = b ++ ['\n', '\n'] := by
    apply dropWhile_eq_self_of_head
    intro a ha
    cases b with
    | nil => cases hw
    | cons x t =>
      have h1 : a = x := by simpa using ha.symm
      have h2 : w = x := by simpa using hw.symm
      rw [h1, ← h2]
      exact hww
  rw [hfront, List.reverse_append]
  have : (['\n', '\n'] : List Char).reverse = ['\n', '\n'] := rfl
  rw [this]
  have hb : b.reverse.head? = some e := by rwa [List.head?_reverse]
  have : (['\n', '\n'] ++ b.reverse).dropWhile isJsWs = b.reverse := by
    show (('\n' : Char) :: '\n' :: b.reverse).dropWhile isJsWs = b.reverse
    rw [List.dropWhile_cons, if_pos (by decide), List.dropWhile_cons, if_pos (by decide)]
    apply dropWhile_eq_self_of_head
    intro a ha
    rw [hb] at ha
    rwa [← Option.some_inj.mp ha]
  rw [this, List.reverse_reverse]

theorem trimWs_head {l : List Char} {c : Char}
    (h : (trimWs l).head? = some c) : isJsWs c = false := by
  unfold trimWs at h
  rw [List.head?_reverse] at h
  have hne : (l.dropWhile isJsWs).reverse.dropWhile isJsWs ≠ [] := by
    intro e
    rw [e] at h
    cases h
  rw [getLast?_dropWhile hne, List.getLast?_reverse] at h
  exact head?_dropWhile_not h

theorem trimWs_getLast {l : List Char} {c : Char}
    (h : (trimWs l).getLast? = some c) : isJsWs c = false := by
  unfold trimWs at h
  rw [List.getLast?_reverse] at h
  exact head?_dropWhile_not h

theorem mem_trimWs {l : List Char} {c : Char} (h : c ∈ trimWs l) : c ∈ l := by
  unfold trimWs at h
  rw [List.mem_reverse] at h
  have h2 := (List.dropWhile_sublist (l := (l.dropWhile isJsWs).reverse) isJsWs).mem h
  rw [List.mem_reverse] at h2
  exact (List.dropWhile_sublist isJsWs).mem h2

/-! ## Helper lemmas: line splitting and joining -/

theorem splitLines_ne_nil : ∀ l : List Char, splitLines l ≠ []
  | [] => by simp [splitLines]
  | c :: rest => by
    simp only [splitLines]
    split
    · simp
    · cases h : splitLines rest with
      | nil => exact absurd h (splitLines_ne_nil rest)
      | cons s ss => simp [consHead]

theorem mem_splitLines_no_nl : ∀ (l : List Char) (x : List Char),
    x ∈ splitLines l → '\n' ∉ x
  | [], x, hx => by
    simp only [splitLines, List.mem_singleton] at hx
    subst hx
    simp
  | c :: rest, x, hx => by
    simp only [splitLines] at hx
    by_cases hc : c = '\n'
    · rw [if_pos hc] at hx
      rcases List.mem_cons.mp hx with h | h
      · subst h; simp
      · exact mem_splitLines_no_nl rest x h
    · rw [if_neg hc] at hx
      cases hs : splitLines rest with
      | nil => exact absurd hs (splitLines_ne_nil rest)
      | cons s ss =>
        rw [hs] at hx
        simp only [consHead] at hx
        rcases List.mem_cons.mp hx with h | h
        · subst h
          intro hmem
          rcases List.mem_cons.mp hmem with h | h
          · exact hc h.symm
          · exact mem_splitLines_no_nl rest s (hs ▸ List.mem_cons_self s ss) h
        · exact mem_splitLines_no_nl rest x (hs ▸ List.mem_cons_of_mem s h)

theorem splitLines_no_nl {l : List Char} (h : '\n' ∉ l) : splitLines l = [l] := by
  induction l with
  | nil => rfl
  | cons c rest ih =>
    have hc : ¬(c = '\n') := fun e => h (e ▸ List.mem_cons_self c rest)
    have hrest : '\n' ∉ rest := fun e => h (List.mem_cons_of_mem c e)
    simp only [splitLines, if_neg hc, ih hrest, consHead]

theorem splitLines_append {p : List Char} (rest : List Char) (h : '\n' ∉ p) :
    splitLines (p ++ '\n' :: rest) = p :: splitLines rest := by
  induction p with
  | nil => simp [splitLines]
  | cons c p' ih =>
    have hc : ¬(c = '\n') := fun e => h (e ▸ List.mem_cons_self c p')
    have hp' : '\n' ∉ p' := fun e => h (List.mem_cons_of_mem c e)
    show splitLines (c :: (p' ++ '\n' :: rest)) = _
    simp only [splitLines, if_neg hc]
    rw [ih hp']
    rfl

theorem splitLines_joinLines : ∀ ls : List (List Char), ls ≠ [] →
    (∀ x ∈ ls, '\n' ∉ x) → splitLines (joinLines ls) = ls
  | [], h, _ => absurd rfl h
  | [l], _, hn => by
    simp only [joinLines]
    exact splitLines_no_nl (hn l (List.mem_singleton_self l))
  | l :: l2 :: ls', _, hn => by
    show splitLines (l ++ '\n' :: joinLines (l2 :: ls')) = _
    rw [splitLines_append _ (hn l (List.mem_cons_self _ _))]
    rw [splitLines_joinLines (l2 :: ls') (by simp)
      (fun x hx => hn x (List.mem_cons_of_mem l hx))]

theorem joinLines_ne_nil {l : List Char} {ls : List (List Char)} (h : l ≠ []) :
    joinLines (l :: ls) ≠ [] := by
  cases ls with
  | nil => simpa [joinLines] using h
  | cons l2 ls' =>
    simp only [joinLines]
    intro e
    exact h (List.append_eq_nil.mp e).1

theorem joinLines_head {l : List Char} {ls : List (List Char)} (h : l ≠ []) :
    (joinLines (l :: ls)).head? = l.head? := by
  cases ls with
  | nil => rfl
  | cons l2 ls' =>
    cases l with
    | nil => exact absurd rfl h
    | cons a t => rfl

/-! ## Helper lemmas: noDouble and noTriple -/

theorem noDouble_cons {c : Char} {l : List Char} :
    noDouble (c :: l) = (!(c = '\n' && l.head? = some '\n') && noDouble l) := rfl

theorem noTriple_cons {c : Char} {l : List Char} :
    noTriple (c :: l) =
      (!(c = '\n' && l.head? = some '\n' && l.tail.head? = some '\n') && noTriple l) := rfl

theorem noDouble_tail {c : Char} {l : List Char} (h : noDouble (c :: l) = true) :
    noDouble l = true := by
  rw [noDouble_cons, Bool.and_eq_true] at h
  exact h.2

theorem noTriple_tail {c : Char} {l : List Char} (h : noTriple (c :: l) = true) :
    noTriple l = true := by
  rw [noTriple_cons, Bool.and_eq_true] at h
  exact h.2

theorem noTriple_suffix {y : List Char} : ∀ {x : List Char},
    noTriple (x ++ y) = true → noTriple y = true
  | [], h => h
  | _ :: x', h => noTriple_suffix (x := x') (noTriple_tail h)

theorem noDouble_of_no_nl {l : List Char} (h : '\n' ∉ l) : noDouble l = true := by
  induction l with
  | nil => rfl
  | cons c rest ih =>
    have hc : ¬(c = '\n') := fun e => h (e ▸ List.mem_cons_self c rest)
    rw [noDouble_cons, Bool.and_eq_true]
    exact ⟨by simp [hc], ih (fun e => h (List.mem_cons_of_mem c e))⟩

theorem noDouble_no_nl_append {x y : List Char} (hx : '\n' ∉ x)
    (hy : ∀ d, y.head? = some d → ¬(d = '\n')) (hnd : noDouble y = true) :
    noDouble (x ++ '\n' :: y) = true := by
  induction x with
  | nil =>
    rw [List.nil_append, noDouble_cons, Bool.and_eq_true]
    refine ⟨?_, hnd⟩
    cases y with
    | nil => rfl
    | cons d y' => simp [hy d rfl]
  | cons c x' ih =>
    have hc : ¬(c = '\n') := fun e => hx (e ▸ List.mem_cons_self c x')
    rw [List.cons_append, noDouble_cons, Bool.and_eq_true]
    exact ⟨by simp [hc], ih (fun e => hx (List.mem_cons_of_mem c e))⟩

theorem joinLines_noDouble : ∀ ls : List (List Char),
    (∀ x ∈ ls, x ≠ [] ∧ '\n' ∉ x) →
    noDouble (joinLines ls) = true ∧
      ∀ d, (joinLines ls).head? = some d → ¬(d = '\n')
  | [], _ => ⟨rfl, fun d h => by cases h⟩
  | [l], h => by
    obtain ⟨hne, hnl⟩ := h l (List.mem_singleton_self l)
    refine ⟨noDouble_of_no_nl hnl, fun d hd => ?_⟩
    intro e
    exact hnl (e ▸ List.mem_of_mem_head? hd)
  | l :: l2 :: ls', h => by
    obtain ⟨hne, hnl⟩ := h l (List.mem_cons_self _ _)
    have hrest := joinLines_noDouble (l2 :: ls')
      (fun x hx => h x (List.mem_cons_of_mem l hx))
    show noDouble (l ++ '\n' :: joinLines (l2 :: ls')) = true ∧ _
    refine ⟨noDouble_no_nl_append hnl hrest.2 hrest.1, fun d hd => ?_⟩
    intro e
    subst e
    cases l with
    | nil => exact hne rfl
    | cons a t =>
      rw [joinLines_head (by simp)] at hd
      have : a = '\n' := by simpa using hd
      exact hnl (this ▸ List.mem_cons_self a t)

theorem joinLines_getLast : ∀ ls : List (List Char), ls ≠ [] →
    (∀ x ∈ ls, ∃ e, x.getLast? = some e ∧ isJsWs e = false) →
    ∃ e, (joinLines ls).getLast? = some e ∧ isJsWs e = false
  | [], h, _ => absurd rfl h
  | [l], _, hl => by
    simpa [joinLines] using hl l (List.mem_singleton_self l)
  | l :: l2 :: ls', _, hl => by
    have hrest := joinLines_getLast (l2 :: ls') (by simp)
      (fun x hx => hl x (List.mem_cons_of_mem l hx))
    obtain ⟨e, he, hwe⟩ := hrest
    have hJne : joinLines (l2 :: ls') ≠ [] := by
      intro hnil
      rw [hnil] at he
      cases he
    refine ⟨e, ?_, hwe⟩
    show (l ++ '\n' :: joinLines (l2 :: ls')).getLast? = some e
    rw [List.getLast?_append_of_ne_nil _ (by simp)]
    cases hJ : joinLines (l2 :: ls') with
    | nil => exact absurd hJ hJne
    | cons j0 J' =>
      rw [List.getLast?_cons_cons, ← hJ, he]

/-! ## Helper lemmas: block segmentation -/

theorem noDouble_nl_head {b : Char} {l : List Char}
    (h : noDouble ('\n' :: b :: l) = true) : ¬(b = '\n') := by
  rw [noDouble_cons, Bool.and_eq_true] at h
  have h1 := h.1
  simpa using h1

theorem getLast?_cons_ne_nl {a : Char} {l : List Char}
    (h : (a :: l).getLast? ≠ some '\n') : l.getLast? ≠ some '\n' := by
  cases l with
  | nil => simp
  | cons b t => rwa [List.getLast?_cons_cons] at h

theorem sbGo_sep_start {rest : List Char}
    (h : ∀ d, rest.head? = some d → ¬(d = '\n')) :
    sbGo .inSep rest = [] :: sbGo .norm rest := by
  cases rest with
  | nil => rfl
  | cons c r' => simp [sbGo, h c rfl]

theorem sbGo_block_cons : ∀ (p rest : List Char), noDouble p = true →
    p.getLast? ≠ some '\n' → (∀ d, rest.head? = some d → ¬(d = '\n')) →
    sbGo .norm (p ++ '\n' :: '\n' :: rest) = p :: sbGo .norm rest
  | [], rest, _, _, hr => by
    show sbGo .norm ('\n' :: '\n' :: rest) = [] :: sbGo .norm rest
    have h1 : sbGo .norm ('\n' :: '\n' :: rest) = sbGo .oneNl ('\n' :: rest) := by
      simp [sbGo]
    have h2 : sbGo .oneNl ('\n' :: rest) = sbGo .inSep rest := by
      simp [sbGo]
    rw [h1, h2, sbGo_sep_start hr]
  | c :: p', rest, hd, hl, hr => by
    by_cases hc : c = '\n'
    · subst hc
      cases p' with
      | nil => simp at hl
      | cons b p'' =>
        have hb : ¬(b = '\n') := noDouble_nl_head hd
        have hdp : noDouble p'' = true := noDouble_tail (noDouble_tail hd)
        have hlp : p''.getLast? ≠ some '\n' := by
          rw [List.getLast?_cons_cons] at hl
          exact getLast?_cons_ne_nl hl
        show sbGo .norm ('\n' :: b :: (p'' ++ '\n' :: '\n' :: rest)) =
          ('\n' :: b :: p'') :: sbGo .norm rest
        have h1 : sbGo .norm ('\n' :: b :: (p'' ++ '\n' :: '\n' :: rest)) =
            sbGo .oneNl (b :: (p'' ++ '\n' :: '\n' :: rest)) := by
          simp [sbGo]
        rw [h1]
        have h2 : sbGo .oneNl (b :: (p'' ++ '\n' :: '\n' :: rest)) =
            consHead '\n' (consHead b (sbGo .norm (p'' ++ '\n' :: '\n' :: rest))) := by
          simp [sbGo, hb]
        rw [h2, sbGo_block_cons p'' rest hdp hlp hr]
        rfl
    · have hdp : noDouble p' = true := noDouble_tail hd
      have hlp : p'.getLast? ≠ some '\n' := getLast?_cons_ne_nl hl
      show sbGo .norm (c :: (p' ++ '\n' :: '\n' :: rest)) = (c :: p') :: sbGo .norm rest
      have h1 : sbGo .norm (c :: (p' ++ '\n' :: '\n' :: rest)) =
          consHead c (sbGo .norm (p' ++ '\n' :: '\n' :: rest)) := by
        simp [sbGo, hc]
      rw [h1, sbGo_block_cons p' rest hdp hlp hr]
      rfl

theorem sbGo_single : ∀ p : List Char, noDouble p = true → sbGo .norm p = [p]
  | [], _ => rfl
  | c :: p', hd => by
    by_cases hc : c = '\n'
    · subst hc
      cases p' with
      | nil => rfl
      | cons b p'' =>
        have hb : ¬(b = '\n') := noDouble_nl_head hd
        have h1 : sbGo .norm ('\n' :: b :: p'') = sbGo .oneNl (b :: p'') := by
          simp [sbGo]
        have h2 : sbGo .oneNl (b :: p'') =
            consHead '\n' (consHead b (sbGo .norm p'')) := by
          simp [sbGo, hb]
        rw [h1, h2, sbGo_single p'' (noDouble_tail (noDouble_tail hd))]
        rfl
    · have h1 : sbGo .norm (c :: p') = consHead c (sbGo .norm p') := by
        simp [sbGo, hc]
      rw [h1, sbGo_single p' (noDouble_tail hd)]
      rfl

theorem sepBlocks_head {b : List Char} {bs : List (List Char)} (h : b ≠ []) :
    (sepBlocks (b :: bs)).head? = b.head? := by
  cases bs with
  | nil => rfl
  | cons c cs =>
    cases b with
    | nil => exact absurd rfl h
    | cons a t => rfl

theorem splitBlocks_sepBlocks : ∀ bs : List (List Char), bs ≠ [] →
    (∀ x ∈ bs, blockNice x) → splitBlocks (sepBlocks bs) = bs
  | [], h, _ => absurd rfl h
  | [b], _, hn => by
    show sbGo .norm (sepBlocks [b]) = [b]
    exact sbGo_single b (hn b (List.mem_singleton_self b)).2.1
  | b :: b2 :: bs', _, hn => by
    obtain ⟨hbne, hbnd, hbhd, hbl⟩ := hn b (List.mem_cons_self _ _)
    have hb2 := hn b2 (List.mem_cons_of_mem b (List.mem_cons_self _ _))
    show sbGo .norm (b ++ '\n' :: '\n' :: sepBlocks (b2 :: bs')) = _
    rw [sbGo_block_cons b _ hbnd hbl]
    · rw [show sbGo .norm (sepBlocks (b2 :: bs')) = splitBlocks (sepBlocks (b2 :: bs'))
        from rfl]
      rw [splitBlocks_sepBlocks (b2 :: bs') (by simp)
        (fun x hx => hn x (List.mem_cons_of_mem b hx))]
    · intro d hd
      rw [sepBlocks_head hb2.1] at hd
      exact hb2.2.2.1 d hd

/-! ## Helper lemmas: newline-run collapsing -/

theorem pendOut_succ {p : Nat} (h : p ≤ 1) : pendOut (p + 1) = pendOut p ++ ['\n'] := by
  interval_cases p <;> rfl

theorem clGo_id : ∀ (l : List Char) (p : Nat), p ≤ 2 →
    noTriple (pendOut p ++ l) = true → clGo p l = pendOut p ++ l
  | [], p, _, _ => by simp [clGo]
  | c :: rest, p, hp, hnt => by
    by_cases hc : c = '\n'
    · subst hc
      have hp1 : p ≤ 1 := by
        by_contra hgt
        have hp2 : p = 2 := by omega
        subst hp2
        simp [pendOut, noTriple_cons] at hnt
      have heq : pendOut (p + 1) ++ rest = pendOut p ++ '\n' :: rest := by
        rw [pendOut_succ hp1, List.append_assoc]
        rfl
      have h1 : clGo p ('\n' :: rest) = clGo (min (p + 1) 3) rest := by
        simp [clGo]
      rw [h1, show min (p + 1) 3 = p + 1 by omega,
        clGo_id rest (p + 1) (by omega) (by rw [heq]; exact hnt)]
      exact heq
    · have h1 : clGo p (c :: rest) = pendOut p ++ c :: clGo 0 rest := by
        simp [clGo, hc]
      have hr : noTriple rest = true := by
        apply noTriple_suffix (x := pendOut p ++ [c])
        rwa [List.append_assoc, List.singleton_append]
      rw [h1, clGo_id rest 0 (by omega) (by simpa using hr)]
      simp [pendOut]

theorem collapseNl_id {l : List Char} (h : noTriple l = true) : collapseNl l = l := by
  have := clGo_id l 0 (by omega) (by simpa using h)
  simpa [collapseNl] using this

/-! ## Helper lemmas: assembled output shape -/

theorem noTriple_sep {s : List Char} (hh : ∀ d, s.head? = some d → ¬(d = '\n'))
    (hs : noTriple s = true) : noTriple ('\n' :: '\n' :: s) = true := by
  cases s with
  | nil => rfl
  | cons d s' =>
    have hd := hh d rfl
    rw [noTriple_cons, noTriple_cons, Bool.and_eq_true, Bool.and_eq_true]
    refine ⟨by simp [hd], by simp [hd], hs⟩

theorem noTriple_no_nl_append {x y : List Char} (hx : '\n' ∉ x)
    (hy : noTriple y = true) : noTriple (x ++ y) = true := by
  induction x with
  | nil => simpa using hy
  | cons a x' ih =>
    have ha : ¬(a = '\n') := fun e => hx (e ▸ List.mem_cons_self a x')
    rw [List.cons_append, noTriple_cons, Bool.and_eq_true]
    exact ⟨by simp [ha], ih (fun e => hx (List.mem_cons_of_mem a e))⟩

theorem noTriple_chunk_append : ∀ (c s : List Char), noDouble c = true →
    c.getLast? ≠ some '\n' → (∀ d, s.head? = some d → ¬(d = '\n')) →
    noTriple s = true → noTriple (c ++ '\n' :: '\n' :: s) = true
  | [], s, _, _, hh, hs => noTriple_sep hh hs
  | a :: c', s, hd, hl, hh, hs => by
    by_cases ha : a = '\n'
    · subst ha
      cases c' with
      | nil => simp at hl
      | cons b c'' =>
        have hb : ¬(b = '\n') := noDouble_nl_head hd
        show noTriple ('\n' :: ((b :: c'') ++ '\n' :: '\n' :: s)) = true
        rw [noTriple_cons, Bool.and_eq_true]
        refine ⟨by simp [hb], ?_⟩
        exact noTriple_chunk_append (b :: c'') s (noDouble_tail hd)
          (by rwa [List.getLast?_cons_cons] at hl) hh hs
    · show noTriple (a :: (c' ++ '\n' :: '\n' :: s)) = true
      rw [noTriple_cons, Bool.and_eq_true]
      refine ⟨by simp [ha], ?_⟩
      exact noTriple_chunk_append c' s (noDouble_tail hd)
        (getLast?_cons_ne_nl hl) hh hs

theorem chunksText_noTriple : ∀ cs : List (List Char), (∀ c ∈ cs, chunkOk c) →
    noTriple (chunksText cs) = true ∧
      ∀ d, (chunksText cs).head? = some d → ¬(d = '\n')
  | [], _ => ⟨rfl, fun d h => by cases h⟩
  | c :: cs', h => by
    obtain ⟨⟨d0, t0, hc0, hdig⟩, hnd, e, he, hwe⟩ := h c (List.mem_cons_self _ _)
    have ih := chunksText_noTriple cs' (fun x hx => h x (List.mem_cons_of_mem c hx))
    constructor
    · show noTriple (c ++ '\n' :: '\n' :: chunksText cs') = true
      apply noTriple_chunk_append c _ hnd _ ih.2 ih.1
      rw [he]
      intro hcon
      exact not_ws_ne_nl hwe (by simpa using hcon)
    · intro d hd
      subst hc0
      have hhd : (chunksText ((d0 :: t0) :: cs')).head? = some d0 := rfl
      have hdd : d0 = d := by
        have := hhd.symm.trans hd
        simpa using this
      exact fun e => isDig_ne_nl hdig (hdd.trans e)

theorem noTriple_header {s : List Char} (hh : ∀ d, s.head? = some d → ¬(d = '\n'))
    (hs : noTriple s = true) : noTriple (vttHeader ++ s) = true := by
  show noTriple (wChars ++ ('\n' :: '\n' :: s)) = true
  exact noTriple_no_nl_append (by decide) (noTriple_sep hh hs)

theorem chunksText_append : ∀ xs ys : List (List Char),
    chunksText (xs ++ ys) = chunksText xs ++ chunksText ys
  | [], ys => rfl
  | x :: xs', ys => by
    show x ++ '\n' :: '\n' :: chunksText (xs' ++ ys) = _
    rw [chunksText_append xs' ys]
    show _ = (x ++ '\n' :: '\n' :: chunksText xs') ++ chunksText ys
    simp [List.append_assoc]

theorem sepBlocks_chunks : ∀ (bs : List (List Char)) (b : List Char),
    sepBlocks (b :: bs) ++ ['\n', '\n'] = b ++ '\n' :: '\n' :: chunksText bs
  | [], b => by simp [sepBlocks, chunksText]
  | c :: cs, b => by
    show (b ++ '\n' :: '\n' :: sepBlocks (c :: cs)) ++ ['\n', '\n'] = _
    rw [List.append_assoc]
    show b ++ ('\n' :: '\n' :: (sepBlocks (c :: cs) ++ ['\n', '\n'])) = _
    rw [sepBlocks_chunks cs c]
    rfl

theorem foldl_emit : ∀ (bs : List (List Char)) (acc : List Char),
    bs.foldl (fun acc b =>
      match emitBlock b with
      | none => acc
      | some c => acc ++ c ++ ['\n', '\n']) acc
      = acc ++ chunksText (bs.filterMap emitBlock)
  | [], acc => by simp [chunksText]
  | b :: bs', acc => by
    rw [List.foldl_cons, List.filterMap_cons]
    cases he : emitBlock b with
    | none =>
      simp only [he]
      exact foldl_emit bs' acc
    | some c =>
      simp only [he]
      rw [foldl_emit bs' (acc ++ c ++ ['\n', '\n'])]
      show _ = acc ++ (c ++ '\n' :: '\n' :: chunksText (bs'.filterMap emitBlock))
      simp [List.append_assoc]

theorem header_chunks_split : ∀ cs : List (List Char), (∀ c ∈ cs, chunkOk c) →
    ∃ b w e, vttHeader ++ chunksText cs = b ++ ['\n', '\n'] ∧
      b.head? = some w ∧ isJsWs w = false ∧ b.getLast? = some e ∧ isJsWs e = false := by
  intro cs h
  rcases List.eq_nil_or_concat cs with rfl | ⟨cs', c, rfl⟩
  · exact ⟨wChars, 'W', 'T', rfl, rfl, by decide, by decide, by decide⟩
  · obtain ⟨⟨d0, t0, hc0, hdig⟩, hnd, e, he, hwe⟩ :=
      h c (by simp)
    refine ⟨vttHeader ++ chunksText cs' ++ c, 'W', e, ?_, rfl, by decide, ?_, hwe⟩
    · have h1 : chunksText [c] = c ++ ['\n', '\n'] := by simp [chunksText]
      rw [List.concat_eq_append, chunksText_append, h1]
      simp [List.append_assoc]
    · rw [List.getLast?_append_of_ne_nil _ (by rw [hc0]; simp)]
      exact he

/-! ## Helper lemmas: emitted blocks satisfy the chunk invariant -/

theorem getLast?_some_of_ne_nil {l : List Char} (h : l ≠ []) :
    ∃ e, l.getLast? = some e := by
  cases hr : l.reverse with
  | nil => exact absurd (List.reverse_eq_nil_iff.mp hr) h
  | cons e t =>
    refine ⟨e, ?_⟩
    rw [← List.head?_reverse, hr]
    rfl

theorem mem_cleanLines {b l : List Char} (h : l ∈ cleanLines b) :
    l ≠ [] ∧ '\n' ∉ l ∧ (∀ a, l.head? = some a → isJsWs a = false) ∧
      ∃ e, l.getLast? = some e ∧ isJsWs e = false := by
  unfold cleanLines at h
  obtain ⟨hmem, hne⟩ := List.mem_filter.mp h
  obtain ⟨x, hx, rfl⟩ := List.mem_map.mp hmem
  have hnolf : '\n' ∉ trimWs x := by
    intro hc
    exact mem_splitLines_no_nl b x hx (mem_trimWs hc)
  have hnonempty : trimWs x ≠ [] := by
    simpa using hne
  refine ⟨hnonempty, hnolf, fun a ha => trimWs_head ha, ?_⟩
  obtain ⟨e, he⟩ := getLast?_some_of_ne_nil hnonempty
  exact ⟨e, he, trimWs_getLast he⟩

theorem findTs_sound : ∀ {ls : List (List Char)} {ts : List Char}
    {after : List (List Char)}, findTs ls = some (ts, after) →
    matchTs ts = true ∧ ts ∈ ls ∧ ∀ x ∈ after, x ∈ ls := by
  intro ls
  induction ls with
  | nil => intro ts after h; cases h
  | cons l rest ih =>
    intro ts after h
    simp only [findTs] at h
    by_cases hm : matchTs l
    · rw [if_pos hm] at h
      obtain ⟨h1, h2⟩ : l = ts ∧ rest = after := by
        constructor <;> [exact (Prod.mk.injEq _ _ _ _ ▸ Option.some_inj.mp h).1;
          exact (Prod.mk.injEq _ _ _ _ ▸ Option.some_inj.mp h).2]
      subst h1
      subst h2
      exact ⟨hm, List.mem_cons_self _ _, fun x hx => List.mem_cons_of_mem _ hx⟩
    · rw [if_neg hm] at h
      obtain ⟨q1, q2, q3⟩ := ih h
      exact ⟨q1, List.mem_cons_of_mem _ q2, fun x hx => List.mem_cons_of_mem _ (q3 x hx)⟩

theorem pD12_head {l r : List Char} (h : pD12 l = some r) :
    ∃ d t, l = d :: t ∧ isDig d = true := by
  cases l with
  | nil => cases h
  | cons c rest =>
    by_cases hc : isDig c
    · exact ⟨c, rest, rfl, hc⟩
    · simp [pD12, hc] at h

theorem pTime_head {l r : List Char} (h : pTime l = some r) :
    ∃ d t, l = d :: t ∧ isDig d = true := by
  unfold pTime at h
  cases h12 : pD12 l with
  | none => rw [h12] at h; simp at h
  | some l1 => exact pD12_head h12

theorem matchTs_head {l : List Char} (h : matchTs l = true) :
    ∃ d t, l = d :: t ∧ isDig d = true := by
  unfold matchTs at h
  cases ht : pTime l with
  | none => rw [ht] at h; cases h
  | some l1 => exact pTime_head ht

theorem rsba_eq {c : Char} {rest : List Char} :
    removeSepBeforeArrow (c :: rest) =
      if (c = ',' || c = '.') && arrowAhead rest then rest
      else c :: removeSepBeforeArrow rest := rfl

theorem mem_rsba {c : Char} : ∀ {l : List Char}, c ∈ removeSepBeforeArrow l → c ∈ l := by
  intro l
  induction l with
  | nil => intro h; cases h
  | cons a rest ih =>
    intro h
    rw [rsba_eq] at h
    by_cases hcond : ((a = ',' || a = '.') && arrowAhead rest) = true
    · rw [if_pos hcond] at h
      exact List.mem_cons_of_mem a h
    · rw [if_neg hcond] at h
      rcases List.mem_cons.mp h with h | h
      · exact h ▸ List.mem_cons_self a rest
      · exact List.mem_cons_of_mem a (ih h)

theorem rsba_head_dig {d : Char} {t : List Char} (hd : isDig d = true) :
    removeSepBeforeArrow (d :: t) = d :: removeSepBeforeArrow t := by
  rw [rsba_eq, if_neg]
  simp [isDig_ne_comma hd, isDig_ne_dot hd]

theorem mem_rts {c : Char} {l : List Char} (h : c ∈ removeTrailingSep l) : c ∈ l := by
  unfold removeTrailingSep at h
  rcases hgl : l.getLast? with _ | e
  · rwa [hgl] at h
  · rw [hgl] at h
    dsimp only at h
    by_cases hcond : (e = ',' || e = '.') = true
    · rw [if_pos hcond] at h
      exact (List.dropLast_sublist l).mem h
    · rwa [if_neg hcond] at h

theorem rts_head_dig {d : Char} {t : List Char} (hd : isDig d = true) :
    ∃ t', removeTrailingSep (d :: t) = d :: t' ∧ ∀ c ∈ t', c ∈ t := by
  cases t with
  | nil =>
    refine ⟨[], ?_, fun c hc => absurd hc (List.not_mem_nil c)⟩
    unfold removeTrailingSep
    simp [isDig_ne_comma hd, isDig_ne_dot hd]
  | cons b t'' =>
    unfold removeTrailingSep
    rcases hgl : (d :: b :: t'').getLast? with _ | e
    · exact ⟨b :: t'', rfl, fun c hc => hc⟩
    · dsimp only
      by_cases hcond : (e = ',' || e = '.') = true
      · rw [if_pos hcond]
        refine ⟨(b :: t'').dropLast, ?_, fun c hc => (List.dropLast_sublist _).mem hc⟩
        rfl
      · rw [if_neg hcond]
        exact ⟨b :: t'', rfl, fun c hc => hc⟩

theorem ctd_cons_ne {c : Char} {rest : List Char} (hc : ¬(c = ',')) :
    commaToDot (c :: rest) = c :: commaToDot rest := by
  rcases rest with _ | ⟨d1, _ | ⟨d2, _ | ⟨d3, r⟩⟩⟩ <;> simp [commaToDot, hc]

theorem mem_ctd_or {c : Char} : ∀ {l : List Char},
    c ∈ commaToDot l → c ∈ l ∨ c = '.'
  | [], h => by cases h
  | a :: rest, h => by
    by_cases ha : a = ','
    · subst ha
      rcases rest with _ | ⟨d1, _ | ⟨d2, _ | ⟨d3, r⟩⟩⟩
      · have h2 : c = ',' := by simpa [commaToDot] using h
        exact Or.inl (h2 ▸ List.mem_cons_self _ _)
      · rw [show commaToDot [',', d1] = ',' :: commaToDot [d1] from by
          simp [commaToDot]] at h
        rcases List.mem_cons.mp h with h | h
        · exact Or.inl (h ▸ List.mem_cons_self _ _)
        · rcases mem_ctd_or h with h | h
          · exact Or.inl (List.mem_cons_of_mem _ h)
          · exact Or.inr h
      · rw [show commaToDot [',', d1, d2] = ',' :: commaToDot [d1, d2] from by
          simp [commaToDot]] at h
        rcases List.mem_cons.mp h with h | h
        · exact Or.inl (h ▸ List.mem_cons_self _ _)
        · rcases mem_ctd_or h with h | h
          · exact Or.inl (List.mem_cons_of_mem _ h)
          · exact Or.inr h
      · by_cases hdig : (isDig d1 && isDig d2 && isDig d3) = true
        · rw [show commaToDot (',' :: d1 :: d2 :: d3 :: r) =
            '.' :: d1 :: d2 :: d3 :: commaToDot r from by simp [commaToDot, hdig]] at h
          rcases List.mem_cons.mp h with h | h
          · exact Or.inr h
          · rcases List.mem_cons.mp h with h | h
            · exact Or.inl (h ▸ by simp)
            · rcases List.mem_cons.mp h with h | h
              · exact Or.inl (h ▸ by simp)
              · rcases List.mem_cons.mp h with h | h
                · exact Or.inl (h ▸ by simp)
                · rcases mem_ctd_or h with h | h
                  · exact Or.inl (by simp [h])
                  · exact Or.inr h
        · rw [show commaToDot (',' :: d1 :: d2 :: d3 :: r) =
            ',' :: commaToDot (d1 :: d2 :: d3 :: r) from by simp [commaToDot, hdig]] at h
          rcases List.mem_cons.mp h with h | h
          · exact Or.inl (h ▸ List.mem_cons_self _ _)
          · rcases mem_ctd_or h with h | h
            · exact Or.inl (List.mem_cons_of_mem _ h)
            · exact Or.inr h
    · rw [ctd_cons_ne ha] at h
      rcases List.mem_cons.mp h with h | h
      · exact Or.inl (h ▸ List.mem_cons_self _ _)
      · rcases mem_ctd_or h with h | h
        · exact Or.inl (List.mem_cons_of_mem _ h)
        · exact Or.inr h

theorem normTs_head_dig {d : Char} {t : List Char} (hd : isDig d = true) :
    ∃ t', normalizeTsLine (d :: t) = d :: t' := by
  unfold normalizeTsLine
  rw [rsba_head_dig hd]
  obtain ⟨t2, ht2, _⟩ := rts_head_dig (t := removeSepBeforeArrow t) hd
  rw [ht2, ctd_cons_ne (isDig_ne_comma hd)]
  exact ⟨commaToDot t2, rfl⟩

theorem normTs_no_nl {l : List Char} (h : '\n' ∉ l) : '\n' ∉ normalizeTsLine l := by
  intro hc
  unfold normalizeTsLine at hc
  rcases mem_ctd_or hc with hc | hc
  · exact h (mem_rsba (mem_rts hc))
  · cases hc

theorem emit_chunkOk {b c : List Char} (h : emitBlock b = some c) : chunkOk c := by
  unfold emitBlock at h
  by_cases hlen : (cleanLines b).length < 2
  · rw [if_pos hlen] at h; cases h
  · rw [if_neg hlen] at h
    cases hf : findTs (cleanLines b) with
    | none => rw [hf] at h; cases h
    | some tsafter =>
      obtain ⟨ts, after⟩ := tsafter
      rw [hf] at h
      set textLines :=
        ((after.filter fun l => !isAllDigits l).filter fun l => !l.isEmpty) with htl
      by_cases hem : textLines.isEmpty
      · simp only [← htl, hem] at h
        cases h
      · simp only [← htl, hem, Bool.false_eq_true, if_false] at h
        have hc : c = normalizeTsLine ts ++ '\n' :: joinLines textLines :=
          (Option.some_inj.mp h).symm
        obtain ⟨hmts, htsmem, hsub⟩ := findTs_sound hf
        obtain ⟨htsne, htsnl, _, _⟩ := mem_cleanLines htsmem
        obtain ⟨d, t, hts, hdig⟩ := matchTs_head hmts
        have htl_facts : ∀ x ∈ textLines, x ≠ [] ∧ '\n' ∉ x ∧
            ∃ e, x.getLast? = some e ∧ isJsWs e = false := by
          intro x hx
          have hx2 : x ∈ after := by
            have := (List.mem_filter.mp hx).1
            exact (List.mem_filter.mp this).1
          obtain ⟨q1, q2, _, q4⟩ := mem_cleanLines (hsub x hx2)
          exact ⟨q1, q2, q4⟩
        have htlne : textLines ≠ [] := by
          intro e
          rw [e] at hem
          simp at hem
        obtain ⟨tl0, tls, htl0⟩ := List.exists_cons_of_ne_nil htlne
        have hnorm_nl : '\n' ∉ normalizeTsLine ts := normTs_no_nl htsnl
        obtain ⟨t', hnt'⟩ : ∃ t', normalizeTsLine ts = d :: t' := by
          rw [hts]
          exact normTs_head_dig hdig
        have hJ := joinLines_noDouble textLines
          (fun x hx => ⟨(htl_facts x hx).1, (htl_facts x hx).2.1⟩)
        refine ⟨⟨d, t' ++ '\n' :: joinLines textLines, ?_, hdig⟩, ?_, ?_⟩
        · rw [hc, hnt']
          rfl
        · rw [hc]
          exact noDouble_no_nl_append hnorm_nl hJ.2 hJ.1
        · rw [hc]
          have hJne : joinLines textLines ≠ [] := by
            rw [htl0]
            exact joinLines_ne_nil (htl_facts tl0 (htl0 ▸ List.mem_cons_self _ _)).1
          obtain ⟨e, he, hwe⟩ := joinLines_getLast textLines htlne
            (fun x hx => (htl_facts x hx).2.2)
          refine ⟨e, ?_, hwe⟩
          rw [List.getLast?_append_of_ne_nil _ (by simp)]
          cases hJ2 : joinLines textLines with
          | nil => exact absurd hJ2 hJne
          | cons j0 J' =>
            rw [List.getLast?_cons_cons, ← hJ2, he]

/-! ## Helper lemmas: the assembled form of the normalizer -/

theorem emit_all_chunkOk (content : List Char) :
    ∀ c ∈ (splitBlocks (trimWs (fixEol content))).filterMap emitBlock, chunkOk c := by
  intro c hc
  obtain ⟨b, _, hb⟩ := List.mem_filterMap.mp hc
  exact emit_chunkOk hb

/-- The final cleanup of `parseToVTT` is the identity on the assembled
text, so the normalizer's output is exactly the header followed by the
emitted cues of the blocks, in block order. -/
theorem parse_assembled (content : List Char) :
    parseToVTTtext content =
      vttHeader ++ chunksText
        ((splitBlocks (trimWs (fixEol content))).filterMap emitBlock) := by
  have hok := emit_all_chunkOk content
  have hchunks := chunksText_noTriple _ hok
  have hnt := noTriple_header hchunks.2 hchunks.1
  obtain ⟨b, w, e, hsplit, hbw, hww, hbe, hwe⟩ := header_chunks_split _ hok
  show trimWs (collapseNl ((splitBlocks (trimWs (fixEol content))).foldl _ vttHeader)) ++
    ['\n', '\n'] = _
  rw [foldl_emit, collapseNl_id hnt, hsplit, trimWs_append_nl2 hbw hww hbe hwe]

theorem findTs_none : ∀ {ls : List (List Char)},
    (∀ l ∈ ls, matchTs l = false) → findTs ls = none
  | [], _ => rfl
  | l :: rest, h => by
    have hl := h l (List.mem_cons_self _ _)
    simp only [findTs, hl]
    exact findTs_none (fun x hx => h x (List.mem_cons_of_mem l hx))

/-! ## Helper lemmas: canonical documents (data model of spec section 3) -/

theorem wf_fields {t : VttTime} (h : t.wf = true) :
    (t.hh.length = 1 ∨ t.hh.length = 2) ∧ (∀ c ∈ t.hh, isDig c = true) ∧
    (∃ m1 m2, t.mm = [m1, m2] ∧ isDig m1 = true ∧ isDig m2 = true) ∧
    (∃ s1 s2, t.ss = [s1, s2] ∧ isDig s1 = true ∧ isDig s2 = true) ∧
    (∃ f1 f2 f3, t.ms = [f1, f2, f3] ∧ isDig f1 = true ∧ isDig f2 = true ∧
      isDig f3 = true) := by
  unfold VttTime.wf at h
  simp only [Bool.and_eq_true, decide_eq_true_eq, Bool.or_eq_true, List.all_eq_true] at h
  obtain ⟨⟨⟨⟨⟨⟨⟨hlen, hdig⟩, hm2⟩, hmd⟩, hs2⟩, hsd⟩, hf3⟩, hfd⟩ := h
  refine ⟨hlen, hdig, ?_, ?_, ?_⟩
  · obtain ⟨m1, m2, hm⟩ := List.length_eq_two.mp hm2
    exact ⟨m1, m2, hm, hmd m1 (by simp [hm]), hmd m2 (by simp [hm])⟩
  · obtain ⟨s1, s2, hs⟩ := List.length_eq_two.mp hs2
    exact ⟨s1, s2, hs, hsd s1 (by simp [hs]), hsd s2 (by simp [hs])⟩
  · obtain ⟨f1, f2, f3, hf⟩ := List.length_eq_three.mp hf3
    exact ⟨f1, f2, f3, hf, hfd f1 (by simp [hf]), hfd f2 (by simp [hf]),
      hfd f3 (by simp [hf])⟩

theorem hh_shape {t : VttTime} (h : t.wf = true) :
    (∃ a, t.hh = [a] ∧ isDig a = true) ∨
      ∃ a b, t.hh = [a, b] ∧ isDig a = true ∧ isDig b = true := by
  obtain ⟨hlen, hdig, _⟩ := wf_fields h
  rcases hlen with h1 | h2
  · obtain ⟨a, ha⟩ := List.length_eq_one.mp h1
    exact Or.inl ⟨a, ha, hdig a (by simp [ha])⟩
  · obtain ⟨a, b, hab⟩ := List.length_eq_two.mp h2
    exact Or.inr ⟨a, b, hab, hdig a (by simp [hab]), hdig b (by simp [hab])⟩

theorem getLast?_cons_of_ne {α : Type} {a : α} {l : List α} (h : l ≠ []) :
    (a :: l).getLast? = l.getLast? := by
  cases l with
  | nil => exact absurd rfl h
  | cons b t => exact List.getLast?_cons_cons

theorem time_render_chars {t : VttTime} (h : t.wf = true) :
    ∀ c ∈ t.render, isDig c = true ∨ c = ':' ∨ c = '.' := by
  obtain ⟨_, hdig, ⟨m1, m2, hm, hm1, hm2⟩, ⟨s1, s2, hs, hs1, hs2⟩,
    ⟨f1, f2, f3, hf, hf1, hf2, hf3⟩⟩ := wf_fields h
  intro c hc
  unfold VttTime.render at hc
  rw [hm, hs, hf] at hc
  simp only [List.mem_append, List.mem_cons, List.not_mem_nil, or_false,
    or_assoc] at hc
  rcases hc with hc | hc | hc | hc | hc | hc | hc | hc | hc | hc | hc
  · exact Or.inl (hdig c hc)
  · exact Or.inr (Or.inl hc)
  · exact Or.inl (by rw [hc]; exact hm1)
  · exact Or.inl (by rw [hc]; exact hm2)
  · exact Or.inr (Or.inl hc)
  · exact Or.inl (by rw [hc]; exact hs1)
  · exact Or.inl (by rw [hc]; exact hs2)
  · exact Or.inr (Or.inr hc)
  · exact Or.inl (by rw [hc]; exact hf1)
  · exact Or.inl (by rw [hc]; exact hf2)
  · exact Or.inl (by rw [hc]; exact hf3)

theorem time_render_head {t : VttTime} (h : t.wf = true) :
    ∃ d r, t.render = d :: r ∧ isDig d = true := by
  rcases hh_shape h with ⟨a, ha, hda⟩ | ⟨a, b, hab, hda, _⟩
  · refine ⟨a, ':' :: t.mm ++ ':' :: t.ss ++ '.' :: t.ms, ?_, hda⟩
    unfold VttTime.render
    rw [ha]
    rfl
  · refine ⟨a, b :: (':' :: t.mm ++ ':' :: t.ss ++ '.' :: t.ms), ?_, hda⟩
    unfold VttTime.render
    rw [hab]
    rfl

theorem time_render_ne_nil {t : VttTime} (h : t.wf = true) : t.render ≠ [] := by
  obtain ⟨d, r, he, _⟩ := time_render_head h
  rw [he]
  simp

theorem time_render_last {t : VttTime} (h : t.wf = true) :
    ∃ d, t.render.getLast? = some d ∧ isDig d = true := by
  obtain ⟨_, _, _, _, f1, f2, f3, hf, _, _, hf3⟩ := wf_fields h
  refine ⟨f3, ?_, hf3⟩
  unfold VttTime.render
  rw [hf, List.getLast?_append_of_ne_nil _ (by simp)]
  simp

theorem tsLine_chars {cue : VttCue} (h1 : cue.tsFrom.wf = true)
    (h2 : cue.tsTo.wf = true) : ∀ c ∈ cue.tsLine,
    isDig c = true ∨ c = ':' ∨ c = '.' ∨ c = ' ' ∨ c = '-' ∨ c = '>' := by
  intro c hc
  unfold VttCue.tsLine at hc
  rcases List.mem_append.mp hc with hc | hc
  · rcases time_render_chars h1 c hc with h | h | h
    · exact Or.inl h
    · exact Or.inr (Or.inl h)
    · exact Or.inr (Or.inr (Or.inl h))
  · rcases List.mem_cons.mp hc with hc | hc
    · exact Or.inr (Or.inr (Or.inr (Or.inl hc)))
    · rcases List.mem_cons.mp hc with hc | hc
      · exact Or.inr (Or.inr (Or.inr (Or.inr (Or.inl hc))))
      · rcases List.mem_cons.mp hc with hc | hc
        · exact Or.inr (Or.inr (Or.inr (Or.inr (Or.inl hc))))
        · rcases List.mem_cons.mp hc with hc | hc
          · exact Or.inr (Or.inr (Or.inr (Or.inr (Or.inr hc))))
          · rcases List.mem_cons.mp hc with hc | hc
            · exact Or.inr (Or.inr (Or.inr (Or.inl hc)))
            · rcases time_render_chars h2 c hc with h | h | h
              · exact Or.inl h
              · exact Or.inr (Or.inl h)
              · exact Or.inr (Or.inr (Or.inl h))

theorem tsLine_no_nl {cue : VttCue} (h1 : cue.tsFrom.wf = true)
    (h2 : cue.tsTo.wf = true) : '\n' ∉ cue.tsLine := by
  intro hc
  rcases tsLine_chars h1 h2 '\n' hc with h | h | h | h | h | h
  · exact absurd h (by decide)
  all_goals cases h

theorem tsLine_no_comma {cue : VttCue} (h1 : cue.tsFrom.wf = true)
    (h2 : cue.tsTo.wf = true) : ∀ c ∈ cue.tsLine, ¬(c = ',') := by
  intro c hc he
  subst he
  rcases tsLine_chars h1 h2 ',' hc with h | h | h | h | h | h
  · exact absurd h (by decide)
  all_goals cases h

/-! ## Helper lemmas: the matcher accepts canonical timestamp lines -/

theorem pD12_two {a b : Char} {X : List Char} (ha : isDig a = true)
    (hb : isDig b = true) : pD12 (a :: b :: X) = some X := by
  simp [pD12, ha, hb]

theorem pD12_one {a : Char} {X : List Char} (ha : isDig a = true)
    (hX : ∀ d, X.head? = some d → isDig d = false) : pD12 (a :: X) = some X := by
  cases X with
  | nil => simp [pD12, ha]
  | cons c X' => simp [pD12, ha, hX c rfl]

theorem pCh_eq (a : Char) (X : List Char) : pCh a (a :: X) = some X := by
  simp [pCh]

theorem pD2_eq {m1 m2 : Char} (X : List Char) (h1 : isDig m1 = true)
    (h2 : isDig m2 = true) : pD2 (m1 :: m2 :: X) = some X := by
  simp [pD2, h1, h2]

theorem pD3_eq {f1 f2 f3 : Char} (X : List Char) (h1 : isDig f1 = true)
    (h2 : isDig f2 = true) (h3 : isDig f3 = true) :
    pD3 (f1 :: f2 :: f3 :: X) = some X := by
  simp [pD3, h1, h2, h3]

theorem pSep_dot {X : List Char} : pSep ('.' :: X) = some X := by
  simp [pSep]

theorem pOptSecs_secs {s1 s2 : Char} {X : List Char} (h1 : isDig s1 = true)
    (h2 : isDig s2 = true) : pOptSecs (':' :: s1 :: s2 :: X) = some X := by
  unfold pOptSecs
  rw [pCh_eq]
  exact pD2_eq _ h1 h2

theorem pOptSep_of_head {rest : List Char}
    (h : ∀ d, rest.head? = some d → ¬(d = ',') ∧ ¬(d = '.')) :
    pOptSep rest = rest := by
  cases rest with
  | nil => rfl
  | cons c r =>
    obtain ⟨h1, h2⟩ := h c rfl
    simp [pOptSep, h1, h2]

theorem pTime_render {t : VttTime} (h : t.wf = true) (rest : List Char)
    (hrest : ∀ d, rest.head? = some d → ¬(d = ',') ∧ ¬(d = '.')) :
    pTime (t.render ++ rest) = some rest := by
  obtain ⟨_, _, ⟨m1, m2, hm, hm1, hm2⟩, ⟨s1, s2, hs, hs1, hs2⟩,
    ⟨f1, f2, f3, hf, hf1, hf2, hf3⟩⟩ := wf_fields h
  rcases hh_shape h with ⟨a, ha, hda⟩ | ⟨a, b, hab, hda, hdb⟩
  · have hr : t.render ++ rest =
        a :: ':' :: m1 :: m2 :: ':' :: s1 :: s2 :: '.' :: f1 :: f2 :: f3 :: rest := by
      unfold VttTime.render
      rw [ha, hm, hs, hf]
      rfl
    rw [hr]
    unfold pTime
    rw [pD12_one hda (by intro d hd; simp at hd; rw [← hd]; decide)]
    simp only [Option.some_bind, pCh_eq, pD2_eq _ hm1 hm2,
      pOptSecs_secs hs1 hs2, pSep_dot, pD3_eq _ hf1 hf2 hf3,
      pOptSep_of_head hrest]
  · have hr : t.render ++ rest =
        a :: b :: ':' :: m1 :: m2 :: ':' :: s1 :: s2 :: '.' :: f1 :: f2 :: f3 :: rest := by
      unfold VttTime.render
      rw [hab, hm, hs, hf]
      rfl
    rw [hr]
    unfold pTime
    rw [pD12_two hda hdb]
    simp only [Option.some_bind, pCh_eq, pD2_eq _ hm1 hm2,
      pOptSecs_secs hs1 hs2, pSep_dot, pD3_eq _ hf1 hf2 hf3,
      pOptSep_of_head hrest]

theorem matchTs_eq_true_of {l l1 l2 : List Char}
    (h1 : pTime l = some l1)
    (h2 : l1.dropWhile isJsWs = '-' :: '-' :: '>' :: l2)
    (h3 : pTime (l2.dropWhile isJsWs) = some []) : matchTs l = true := by
  unfold matchTs
  simp only [h1, h2, h3]

theorem matchTs_canonical {cue : VttCue} (h1 : cue.tsFrom.wf = true)
    (h2 : cue.tsTo.wf = true) : matchTs cue.tsLine = true := by
  obtain ⟨d, r, hdr, hdd⟩ := time_render_head h2
  have hdw2 : (' ' :: cue.tsTo.render).dropWhile isJsWs = cue.tsTo.render := by
    rw [List.dropWhile_cons, if_pos (by decide)]
    apply dropWhile_eq_self_of_head
    intro x hx
    rw [hdr] at hx
    have hx2 : d = x := by simpa using hx
    exact hx2 ▸ isDig_not_ws hdd
  have hA : pTime cue.tsLine =
      some (' ' :: '-' :: '-' :: '>' :: ' ' :: cue.tsTo.render) :=
    pTime_render h1 _
      (by intro x hx; simp at hx; rw [← hx]; exact ⟨by decide, by decide⟩)
  have hB : (' ' :: '-' :: '-' :: '>' :: ' ' :: cue.tsTo.render).dropWhile isJsWs =
      '-' :: '-' :: '>' :: (' ' :: cue.tsTo.render) := by
    rw [List.dropWhile_cons, if_pos (by decide), List.dropWhile_cons,
      if_neg (by decide)]
  have hC : pTime ((' ' :: cue.tsTo.render).dropWhile isJsWs) = some [] := by
    rw [hdw2, show cue.tsTo.render = cue.tsTo.render ++ [] from
      (List.append_nil _).symm, pTime_render h2 [] (fun x hx => by cases hx)]
  exact matchTs_eq_true_of hA hB hC

/-! ## Helper lemmas: normalization is the identity on canonical lines -/

theorem arrowAhead_not_dash {d : Char} {l : List Char} (hws : isJsWs d = false)
    (hd : ¬(d = '-')) : arrowAhead (d :: l) = false := by
  unfold arrowAhead
  rw [List.dropWhile_cons, if_neg (by simp [hws])]
  split <;> simp_all

theorem rsba_skip {c : Char} {l : List Char}
    (h : ((c = ',' || c = '.') && arrowAhead l) = false) :
    removeSepBeforeArrow (c :: l) = c :: removeSepBeforeArrow l := by
  rw [rsba_eq, if_neg (by rw [h]; simp)]

theorem rsba_nonsep {c : Char} {l : List Char} (h1 : ¬(c = ',')) (h2 : ¬(c = '.')) :
    removeSepBeforeArrow (c :: l) = c :: removeSepBeforeArrow l :=
  rsba_skip (by simp [h1, h2])

theorem rsba_sep_noArrow {c : Char} {l : List Char} (ha : arrowAhead l = false) :
    removeSepBeforeArrow (c :: l) = c :: removeSepBeforeArrow l :=
  rsba_skip (by simp [ha])

theorem rsba_render {t : VttTime} (h : t.wf = true) (rest : List Char) :
    removeSepBeforeArrow (t.render ++ rest) = t.render ++ removeSepBeforeArrow rest := by
  obtain ⟨_, _, ⟨m1, m2, hm, hm1, hm2⟩, ⟨s1, s2, hs, hs1, hs2⟩,
    ⟨f1, f2, f3, hf, hf1, hf2, hf3⟩⟩ := wf_fields h
  have hdot : removeSepBeforeArrow ('.' :: f1 :: f2 :: f3 :: rest) =
      '.' :: removeSepBeforeArrow (f1 :: f2 :: f3 :: rest) :=
    rsba_sep_noArrow (arrowAhead_not_dash (isDig_not_ws hf1) (isDig_ne_dash hf1))
  rcases hh_shape h with ⟨a, ha, hda⟩ | ⟨a, b, hab, hda, hdb⟩
  · have hr : t.render ++ rest =
        a :: ':' :: m1 :: m2 :: ':' :: s1 :: s2 :: '.' :: f1 :: f2 :: f3 :: rest := by
      unfold VttTime.render
      rw [ha, hm, hs, hf]
      rfl
    have hr2 : t.render ++ removeSepBeforeArrow rest =
        a :: ':' :: m1 :: m2 :: ':' :: s1 :: s2 :: '.' :: f1 :: f2 :: f3 ::
          removeSepBeforeArrow rest := by
      unfold VttTime.render
      rw [ha, hm, hs, hf]
      rfl
    rw [hr, hr2, rsba_head_dig hda, rsba_nonsep (by decide) (by decide),
      rsba_head_dig hm1, rsba_head_dig hm2, rsba_nonsep (by decide) (by decide),
      rsba_head_dig hs1, rsba_head_dig hs2, hdot, rsba_head_dig hf1,
      rsba_head_dig hf2, rsba_head_dig hf3]
  · have hr : t.render ++ rest =
        a :: b :: ':' :: m1 :: m2 :: ':' :: s1 :: s2 :: '.' :: f1 :: f2 :: f3 :: rest := by
      unfold VttTime.render
      rw [hab, hm, hs, hf]
      rfl
    have hr2 : t.render ++ removeSepBeforeArrow rest =
        a :: b :: ':' :: m1 :: m2 :: ':' :: s1 :: s2 :: '.' :: f1 :: f2 :: f3 ::
          removeSepBeforeArrow rest := by
      unfold VttTime.render
      rw [hab, hm, hs, hf]
      rfl
    rw [hr, hr2, rsba_head_dig hda, rsba_head_dig hdb,
      rsba_nonsep (by decide) (by decide), rsba_head_dig hm1, rsba_head_dig hm2,
      rsba_nonsep (by decide) (by decide), rsba_head_dig hs1, rsba_head_dig hs2,
      hdot, rsba_head_dig hf1, rsba_head_dig hf2, rsba_head_dig hf3]

theorem rsba_render_nil {t : VttTime} (h : t.wf = true) :
    removeSepBeforeArrow t.render = t.render := by
  have h2 := rsba_render h []
  simpa [removeSepBeforeArrow] using h2

theorem ctd_eq_self : ∀ l : List Char, (∀ c ∈ l, ¬(c = ',')) → commaToDot l = l
  | [], _ => rfl
  | c :: rest, h => by
    rw [ctd_cons_ne (h c (List.mem_cons_self _ _)),
      ctd_eq_self rest (fun x hx => h x (List.mem_cons_of_mem c hx))]

theorem tsLine_last {cue : VttCue} (_h1 : cue.tsFrom.wf = true)
    (h2 : cue.tsTo.wf = true) :
    ∃ d, cue.tsLine.getLast? = some d ∧ isDig d = true := by
  obtain ⟨d, hd, hdd⟩ := time_render_last h2
  refine ⟨d, ?_, hdd⟩
  unfold VttCue.tsLine
  rw [List.getLast?_append_of_ne_nil _ (by simp), getLast?_cons_of_ne (by simp),
    getLast?_cons_of_ne (by simp), getLast?_cons_of_ne (by simp),
    getLast?_cons_of_ne (by simp), getLast?_cons_of_ne (time_render_ne_nil h2), hd]

theorem rts_eq_self {l : List Char} {d : Char} (h : l.getLast? = some d)
    (h1 : ¬(d = ',')) (h2 : ¬(d = '.')) : removeTrailingSep l = l := by
  unfold removeTrailingSep
  rw [h]
  dsimp only
  rw [if_neg (by simp [h1, h2])]

theorem normTs_canonical {cue : VttCue} (h1 : cue.tsFrom.wf = true)
    (h2 : cue.tsTo.wf = true) : normalizeTsLine cue.tsLine = cue.tsLine := by
  unfold normalizeTsLine
  have hrs : removeSepBeforeArrow cue.tsLine = cue.tsLine := by
    unfold VttCue.tsLine
    rw [rsba_render h1]
    congr 1
    rw [rsba_nonsep (by decide) (by decide), rsba_nonsep (by decide) (by decide),
      rsba_nonsep (by decide) (by decide), rsba_nonsep (by decide) (by decide),
      rsba_nonsep (by decide) (by decide), rsba_render_nil h2]
  rw [hrs]
  obtain ⟨d, hld, hdd⟩ := tsLine_last h1 h2
  rw [rts_eq_self hld (isDig_ne_comma hdd) (isDig_ne_dot hdd)]
  exact ctd_eq_self _ (tsLine_no_comma h1 h2)

/-! ## Helper lemmas: canonical cues round-trip through the block loop -/

theorem map_id_of {α : Type} {f : α → α} : ∀ {ls : List α},
    (∀ x ∈ ls, f x = x) → ls.map f = ls
  | [], _ => rfl
  | x :: xs, h => by
    rw [List.map_cons, h x (List.mem_cons_self _ _),
      map_id_of (fun y hy => h y (List.mem_cons_of_mem x hy))]

theorem wf_parts {c : VttCue} (h : c.wf = true) :
    c.tsFrom.wf = true ∧ c.tsTo.wf = true ∧ c.text ≠ [] ∧
      ∀ l ∈ c.text, canonicalLine l = true := by
  unfold VttCue.wf at h
  simp only [Bool.and_eq_true, List.all_eq_true, Bool.not_eq_true'] at h
  obtain ⟨⟨⟨h1, h2⟩, h3⟩, h4⟩ := h
  exact ⟨h1, h2, by simpa using h3, h4⟩

theorem wfNoDigit_parts {c : VttCue} (h : c.wfNoDigitLines = true) :
    c.wf = true ∧ ∀ l ∈ c.text, isAllDigits l = false := by
  unfold VttCue.wfNoDigitLines at h
  simp only [Bool.and_eq_true, List.all_eq_true, Bool.not_eq_true'] at h
  exact ⟨h.1, h.2⟩

theorem canonicalLine_facts {l : List Char} (h : canonicalLine l = true) :
    l ≠ [] ∧ '\n' ∉ l ∧ '\r' ∉ l ∧ (∀ a, l.head? = some a → isJsWs a = false) ∧
      ∃ e, l.getLast? = some e ∧ isJsWs e = false := by
  unfold canonicalLine at h
  cases hh : l.head? with
  | none => rw [hh] at h; cases h
  | some a =>
    cases hgl : l.getLast? with
    | none => rw [hh, hgl] at h; cases h
    | some b =>
      rw [hh, hgl] at h
      dsimp only at h
      simp only [Bool.and_eq_true, Bool.not_eq_true', List.all_eq_true] at h
      obtain ⟨⟨ha, hb⟩, hall⟩ := h
      have hne : l ≠ [] := by
        intro e
        rw [e] at hh
        simp at hh
      refine ⟨hne, ?_, ?_, ?_, b, rfl, hb⟩
      · intro hc
        have := hall '\n' hc
        simp at this
      · intro hc
        have := hall '\r' hc
        simp at this
      · intro x hx
        have hax : a = x := by simpa using hx
        rw [← hax]
        exact ha

theorem mem_joinLines : ∀ (ls : List (List Char)) (c : Char),
    c ∈ joinLines ls → c = '\n' ∨ ∃ x ∈ ls, c ∈ x
  | [], c, h => by cases h
  | [l], c, h => Or.inr ⟨l, List.mem_singleton_self l, h⟩
  | l :: l2 :: ls', c, h => by
    have h2 : c ∈ l ++ '\n' :: joinLines (l2 :: ls') := h
    rcases List.mem_append.mp h2 with h3 | h3
    · exact Or.inr ⟨l, List.mem_cons_self _ _, h3⟩
    · rcases List.mem_cons.mp h3 with h4 | h4
      · exact Or.inl h4
      · rcases mem_joinLines (l2 :: ls') c h4 with h5 | ⟨x, hx, hcx⟩
        · exact Or.inl h5
        · exact Or.inr ⟨x, List.mem_cons_of_mem l hx, hcx⟩

theorem body_head_dig {cue : VttCue} (h1 : cue.tsFrom.wf = true) :
    ∃ d t, cue.body = d :: t ∧ isDig d = true := by
  obtain ⟨d, r, hdr, hdd⟩ := time_render_head h1
  refine ⟨d, (r ++ ' ' :: '-' :: '-' :: '>' :: ' ' :: cue.tsTo.render) ++
    '\n' :: joinLines cue.text, ?_, hdd⟩
  unfold VttCue.body VttCue.tsLine
  rw [hdr]
  rfl

theorem body_getLast {cue : VttCue} (h : cue.wf = true) :
    ∃ e, cue.body.getLast? = some e ∧ isJsWs e = false := by
  obtain ⟨h1, h2, htne, hlines⟩ := wf_parts h
  obtain ⟨l0, ls0, hl0⟩ := List.exists_cons_of_ne_nil htne
  have hJne : joinLines cue.text ≠ [] := by
    rw [hl0]
    exact joinLines_ne_nil
      (canonicalLine_facts (hlines l0 (hl0 ▸ List.mem_cons_self _ _))).1
  obtain ⟨e, he, hwe⟩ := joinLines_getLast cue.text htne
    (fun x hx => (canonicalLine_facts (hlines x hx)).2.2.2.2)
  refine ⟨e, ?_, hwe⟩
  unfold VttCue.body
  rw [List.getLast?_append_of_ne_nil _ (by simp)]
  cases hJ : joinLines cue.text with
  | nil => exact absurd hJ hJne
  | cons j0 J' => rw [List.getLast?_cons_cons, ← hJ, he]

theorem body_noDouble {cue : VttCue} (h : cue.wf = true) :
    noDouble cue.body = true := by
  obtain ⟨h1, h2, htne, hlines⟩ := wf_parts h
  have hJ := joinLines_noDouble cue.text
    (fun x hx => ⟨(canonicalLine_facts (hlines x hx)).1,
      (canonicalLine_facts (hlines x hx)).2.1⟩)
  unfold VttCue.body
  exact noDouble_no_nl_append (tsLine_no_nl h1 h2) hJ.2 hJ.1

theorem body_chunkOk {cue : VttCue} (h : cue.wf = true) : chunkOk cue.body :=
  ⟨body_head_dig (wf_parts h).1, body_noDouble h, body_getLast h⟩

theorem body_blockNice {cue : VttCue} (h : cue.wf = true) : blockNice cue.body := by
  obtain ⟨d, t, hdt, hdd⟩ := body_head_dig (wf_parts h).1
  obtain ⟨e, he, hwe⟩ := body_getLast h
  refine ⟨by rw [hdt]; simp, body_noDouble h, ?_, ?_⟩
  · intro x hx
    rw [hdt] at hx
    have : d = x := by simpa using hx
    rw [← this]
    exact isDig_ne_nl hdd
  · rw [he]
    intro hcon
    exact not_ws_ne_nl hwe (by simpa using hcon)

theorem body_no_cr {cue : VttCue} (h : cue.wf = true) :
    ∀ x ∈ cue.body, ¬(x = '\r') := by
  obtain ⟨h1, h2, htne, hlines⟩ := wf_parts h
  intro x hx he
  subst he
  unfold VttCue.body at hx
  rcases List.mem_append.mp hx with hx | hx
  · rcases tsLine_chars h1 h2 '\r' hx with hc | hc | hc | hc | hc | hc
    · exact absurd hc (by decide)
    all_goals cases hc
  · rcases List.mem_cons.mp hx with hx | hx
    · cases hx
    · rcases mem_joinLines cue.text '\r' hx with hc | ⟨y, hy, hcy⟩
      · cases hc
      · exact (canonicalLine_facts (hlines y hy)).2.2.1 hcy

theorem cleanLines_body {cue : VttCue} (h : cue.wf = true) :
    cleanLines cue.body = cue.tsLine :: cue.text := by
  obtain ⟨h1, h2, htne, hlines⟩ := wf_parts h
  obtain ⟨d, hld, hldd⟩ := tsLine_last h1 h2
  obtain ⟨d0, r0, hdr0, hdd0⟩ := time_render_head h1
  have hsplit : splitLines cue.body = cue.tsLine :: cue.text := by
    unfold VttCue.body
    rw [splitLines_append _ (tsLine_no_nl h1 h2),
      splitLines_joinLines cue.text htne
        (fun x hx => (canonicalLine_facts (hlines x hx)).2.1)]
  unfold cleanLines
  rw [hsplit]
  rw [map_id_of (f := trimWs) ?_]
  · apply List.filter_eq_self.mpr
    intro a ha
    rcases List.mem_cons.mp ha with ha | ha
    · rw [ha]
      have : cue.tsLine ≠ [] := by
        unfold VttCue.tsLine
        rw [hdr0]
        simp
      simpa using this
    · simpa using (canonicalLine_facts (hlines a ha)).1
  · intro x hx
    rcases List.mem_cons.mp hx with hx | hx
    · subst hx
      apply trimWs_eq_self
      · intro a ha
        have hts : cue.tsLine.head? = some d0 := by
          unfold VttCue.tsLine
          rw [hdr0]
          rfl
        have hda : d0 = a := by
          have := hts.symm.trans ha
          simpa using this
        rw [← hda]
        exact isDig_not_ws hdd0
      · intro a ha
        have hda : d = a := by
          have := hld.symm.trans ha
          simpa using this
        rw [← hda]
        exact isDig_not_ws hldd
    · apply trimWs_eq_self
      · exact (canonicalLine_facts (hlines x hx)).2.2.2.1
      · intro a ha
        obtain ⟨e, he, hwe⟩ := (canonicalLine_facts (hlines x hx)).2.2.2.2
        have : e = a := by
          have := he.symm.trans ha
          simpa using this
        rw [← this]
        exact hwe

theorem canonical_emit {cue : VttCue} (h : cue.wfNoDigitLines = true) :
    emitBlock cue.body = some cue.body := by
  obtain ⟨hwf, hnodig⟩ := wfNoDigit_parts h
  obtain ⟨h1, h2, htne, hlines⟩ := wf_parts hwf
  unfold emitBlock
  rw [cleanLines_body hwf]
  have hlen : ¬((cue.tsLine :: cue.text).length < 2) := by
    have := List.length_pos.mpr htne
    simp only [List.length_cons]
    omega
  rw [if_neg hlen]
  have hfind : findTs (cue.tsLine :: cue.text) = some (cue.tsLine, cue.text) := by
    unfold findTs
    rw [if_pos (matchTs_canonical h1 h2)]
  rw [hfind]
  have hfilter1 : cue.text.filter (fun l => !isAllDigits l) = cue.text :=
    List.filter_eq_self.mpr (fun a ha => by simpa using hnodig a ha)
  have hfilter2 : cue.text.filter (fun l => !l.isEmpty) = cue.text :=
    List.filter_eq_self.mpr
      (fun a ha => by simpa using (canonicalLine_facts (hlines a ha)).1)
  dsimp only
  rw [hfilter1, hfilter2, if_neg (by simpa using htne), normTs_canonical h1 h2]
  rfl

/-! ## Helper lemmas: line-ending fix and document assembly for canonical docs -/

theorem crlf_cons_ne {c : Char} {rest : List Char} (hc : ¬(c = '\r')) :
    crlfToLf (c :: rest) = c :: crlfToLf rest := by
  rcases rest with _ | ⟨c2, r⟩ <;> simp [crlfToLf, hc]

theorem crlfToLf_id {l : List Char} (h : ∀ c ∈ l, ¬(c = '\r')) : crlfToLf l = l := by
  induction l with
  | nil => rfl
  | cons c rest ih =>
    rw [crlf_cons_ne (h c (List.mem_cons_self _ _)),
      ih (fun x hx => h x (List.mem_cons_of_mem c hx))]

theorem crToLf_id {l : List Char} (h : ∀ c ∈ l, ¬(c = '\r')) : crToLf l = l := by
  unfold crToLf
  apply map_id_of
  intro x hx
  rw [if_neg (h x hx)]

theorem fixEol_id {l : List Char} (h : ∀ c ∈ l, ¬(c = '\r')) : fixEol l = l := by
  unfold fixEol
  rw [crlfToLf_id h, crToLf_id h]

theorem mem_chunksText : ∀ (cs : List (List Char)) (x : Char),
    x ∈ chunksText cs → x = '\n' ∨ ∃ c ∈ cs, x ∈ c
  | [], x, h => by cases h
  | c :: cs', x, h => by
    have h2 : x ∈ c ++ '\n' :: '\n' :: chunksText cs' := h
    rcases List.mem_append.mp h2 with h3 | h3
    · exact Or.inr ⟨c, List.mem_cons_self _ _, h3⟩
    · rcases List.mem_cons.mp h3 with h4 | h4
      · exact Or.inl h4
      · rcases List.mem_cons.mp h4 with h5 | h5
        · exact Or.inl h5
        · rcases mem_chunksText cs' x h5 with h6 | ⟨y, hy, hxy⟩
          · exact Or.inl h6
          · exact Or.inr ⟨y, List.mem_cons_of_mem c hy, hxy⟩

theorem renderDoc_no_cr {cues : List VttCue} (h : ∀ c ∈ cues, c.wf = true) :
    ∀ x ∈ renderDoc cues, ¬(x = '\r') := by
  intro x hx he
  subst he
  unfold renderDoc at hx
  rcases List.mem_append.mp hx with hx | hx
  · have : ∀ y ∈ vttHeader, ¬(y = '\r') := by decide
    exact this '\r' hx rfl
  · rcases mem_chunksText _ '\r' hx with hc | ⟨c, hc, hxc⟩
    · cases hc
    · obtain ⟨cue, hcue, hbody⟩ := List.mem_map.mp hc
      exact body_no_cr (h cue hcue) '\r' (hbody ▸ hxc) rfl

theorem sepBlocks_ne_nil {b : List Char} {bs : List (List Char)} (h : b ≠ []) :
    sepBlocks (b :: bs) ≠ [] := by
  cases bs with
  | nil => simpa [sepBlocks] using h
  | cons c cs =>
    show b ++ '\n' :: '\n' :: sepBlocks (c :: cs) ≠ []
    simp

theorem sepBlocks_getLast : ∀ bs : List (List Char), bs ≠ [] →
    (∀ x ∈ bs, x ≠ [] ∧ ∃ e, x.getLast? = some e ∧ isJsWs e = false) →
    ∃ e, (sepBlocks bs).getLast? = some e ∧ isJsWs e = false
  | [], h, _ => absurd rfl h
  | [b], _, hx => by
    obtain ⟨_, e, he, hwe⟩ := hx b (List.mem_singleton_self b)
    exact ⟨e, he, hwe⟩
  | b :: b2 :: bs', _, hx => by
    obtain ⟨e, he, hwe⟩ := sepBlocks_getLast (b2 :: bs') (by simp)
      (fun x hxx => hx x (List.mem_cons_of_mem b hxx))
    have hS : sepBlocks (b2 :: bs') ≠ [] :=
      sepBlocks_ne_nil (hx b2 (List.mem_cons_of_mem b (List.mem_cons_self _ _))).1
    refine ⟨e, ?_, hwe⟩
    show (b ++ '\n' :: '\n' :: sepBlocks (b2 :: bs')).getLast? = some e
    rw [List.getLast?_append_of_ne_nil _ (by simp), getLast?_cons_of_ne (by simp),
      getLast?_cons_of_ne hS, he]

theorem blockNice_wChars : blockNice wChars := by
  refine ⟨by decide, by decide, ?_, by decide⟩
  intro d hd
  have hwd : 'W' = d := by simpa [wChars] using hd
  rw [← hwd]
  decide

theorem filterMap_emit_map : ∀ cues : List VttCue,
    (∀ c ∈ cues, c.wfNoDigitLines = true) →
    (cues.map VttCue.body).filterMap emitBlock = cues.map VttCue.body
  | [], _ => rfl
  | c :: cs, h => by
    rw [List.map_cons, List.filterMap_cons, canonical_emit (h c (List.mem_cons_self _ _))]
    rw [filterMap_emit_map cs (fun x hx => h x (List.mem_cons_of_mem c hx))]

/-! ## Helper lemmas: commas in matched timestamp lines

In a line accepted by the timestamp matcher every comma is followed by at
most three consecutive digits (`noComma4`), and this survives the first two
normalization steps; on such lines the global comma-to-dot replacement and
the spec's exactly-three-digits reading coincide. -/

theorem nc4_cons {c : Char} {rest : List Char} :
    noComma4 (c :: rest) =
      ((!(c = ',') || decide ((rest.takeWhile isDig).length ≤ 3)) && noComma4 rest) :=
  rfl

theorem nc4_tail {c : Char} {rest : List Char} (h : noComma4 (c :: rest) = true) :
    noComma4 rest = true := by
  rw [nc4_cons, Bool.and_eq_true] at h
  exact h.2

theorem nc4_cons_ne {c : Char} {rest : List Char} (hc : ¬(c = ','))
    (h : noComma4 rest = true) : noComma4 (c :: rest) = true := by
  rw [nc4_cons, Bool.and_eq_true]
  exact ⟨by simp [hc], h⟩

theorem nc4_cons_comma {rest : List Char}
    (hl : (rest.takeWhile isDig).length ≤ 3) (h : noComma4 rest = true) :
    noComma4 (',' :: rest) = true := by
  rw [nc4_cons, Bool.and_eq_true]
  exact ⟨by simp [hl], h⟩

theorem nc4_comma_bound {rest : List Char} (h : noComma4 (',' :: rest) = true) :
    (rest.takeWhile isDig).length ≤ 3 := by
  rw [nc4_cons, Bool.and_eq_true] at h
  have h1 := h.1
  simpa using h1

theorem nc4_no_comma_append {x y : List Char} (hx : ∀ c ∈ x, ¬(c = ','))
    (hy : noComma4 y = true) : noComma4 (x ++ y) = true := by
  induction x with
  | nil => simpa using hy
  | cons a x' ih =>
    exact nc4_cons_ne (hx a (List.mem_cons_self _ _))
      (ih (fun c hc => hx c (List.mem_cons_of_mem a hc)))

theorem takeWhile_not_head {l : List Char} {p : Char → Bool}
    (h : ∀ d, l.head? = some d → p d = false) : l.takeWhile p = [] := by
  cases l with
  | nil => rfl
  | cons a t => rw [List.takeWhile_cons, if_neg (by simp [h a rfl])]

theorem nc4_sep_digits {sep f1 f2 f3 : Char} {X : List Char}
    (hsep : sep = ',' ∨ sep = '.')
    (h1 : isDig f1 = true) (h2 : isDig f2 = true) (h3 : isDig f3 = true)
    (hX : ∀ d, X.head? = some d → isDig d = false) (hnc : noComma4 X = true) :
    noComma4 (sep :: f1 :: f2 :: f3 :: X) = true := by
  have hrest : noComma4 (f1 :: f2 :: f3 :: X) = true :=
    nc4_cons_ne (isDig_ne_comma h1) (nc4_cons_ne (isDig_ne_comma h2)
      (nc4_cons_ne (isDig_ne_comma h3) hnc))
  rcases hsep with hsep | hsep
  · subst hsep
    apply nc4_cons_comma ?_ hrest
    rw [List.takeWhile_cons, if_pos (by simp [h1]), List.takeWhile_cons,
      if_pos (by simp [h2]), List.takeWhile_cons, if_pos (by simp [h3]),
      takeWhile_not_head hX]
    simp
  · subst hsep
    exact nc4_cons_ne (by decide) hrest

theorem pD12_sound {l r : List Char} (h : pD12 l = some r) :
    (∃ d, isDig d = true ∧ l = d :: r) ∨
      ∃ d e, isDig d = true ∧ isDig e = true ∧ l = d :: e :: r := by
  cases l with
  | nil => cases h
  | cons c rest =>
    by_cases hc : isDig c
    · cases rest with
      | nil =>
        simp only [pD12, hc, if_true] at h
        exact Or.inl ⟨c, hc, by rw [Option.some_inj.mp h]⟩
      | cons c2 rest2 =>
        by_cases hc2 : isDig c2
        · simp only [pD12, hc, hc2, if_true] at h
          exact Or.inr ⟨c, c2, hc, hc2, by rw [Option.some_inj.mp h]⟩
        · simp only [pD12, hc, hc2, if_true, Bool.false_eq_true, if_false] at h
          exact Or.inl ⟨c, hc, by rw [Option.some_inj.mp h]⟩
    · simp [pD12, hc] at h

theorem pCh_sound {a : Char} {l r : List Char} (h : pCh a l = some r) :
    l = a :: r := by
  cases l with
  | nil => cases h
  | cons c rest =>
    by_cases hc : c = a
    · subst hc
      simp only [pCh, if_true] at h
      rw [Option.some_inj.mp h]
    · simp [pCh, hc] at h

theorem pD2_sound {l r : List Char} (h : pD2 l = some r) :
    ∃ m1 m2, isDig m1 = true ∧ isDig m2 = true ∧ l = m1 :: m2 :: r := by
  rcases l with _ | ⟨c1, _ | ⟨c2, rest⟩⟩
  · cases h
  · cases h
  · by_cases hd : (isDig c1 && isDig c2) = true
    · simp only [pD2, hd, if_true] at h
      obtain ⟨h1, h2⟩ : isDig c1 = true ∧ isDig c2 = true := by
        rw [Bool.and_eq_true] at hd
        exact hd
      exact ⟨c1, c2, h1, h2, by rw [Option.some_inj.mp h]⟩
    · simp [pD2, hd] at h

theorem pD3_sound {l r : List Char} (h : pD3 l = some r) :
    ∃ f1 f2 f3, isDig f1 = true ∧ isDig f2 = true ∧ isDig f3 = true ∧
      l = f1 :: f2 :: f3 :: r := by
  rcases l with _ | ⟨c1, _ | ⟨c2, _ | ⟨c3, rest⟩⟩⟩
  · cases h
  · cases h
  · cases h
  · by_cases hd : (isDig c1 && isDig c2 && isDig c3) = true
    · simp only [pD3, hd, if_true] at h
      obtain ⟨⟨h1, h2⟩, h3⟩ := by
        rw [Bool.and_eq_true, Bool.and_eq_true] at hd
        exact hd
      exact ⟨c1, c2, c3, h1, h2, h3, by rw [Option.some_inj.mp h]⟩
    · simp [pD3, hd] at h

theorem or_eq_true_elim {a b : Bool} (h : (a || b) = true) :
    a = true ∨ b = true := by
  rw [Bool.or_eq_true] at h
  exact h

theorem pOptSecs_sound {l r : List Char} (h : pOptSecs l = some r) :
    l = r ∨ ∃ s1 s2, isDig s1 = true ∧ isDig s2 = true ∧
      l = ':' :: s1 :: s2 :: r := by
  unfold pOptSecs at h
  cases hc : pCh ':' l with
  | none =>
    rw [hc] at h
    exact Or.inl (Option.some_inj.mp h)
  | some l2 =>
    rw [hc] at h
    obtain ⟨s1, s2, hs1, hs2, hl2⟩ := pD2_sound h
    exact Or.inr ⟨s1, s2, hs1, hs2, by rw [pCh_sound hc, hl2]⟩

theorem pSep_sound {l r : List Char} (h : pSep l = some r) :
    ∃ sep, (sep = ',' ∨ sep = '.') ∧ l = sep :: r := by
  cases l with
  | nil => cases h
  | cons c rest =>
    by_cases hc : (c = ',' || c = '.') = true
    · simp only [pSep, hc, if_true] at h
      refine ⟨c, ?_, by rw [Option.some_inj.mp h]⟩
      rcases or_eq_true_elim hc with h2 | h2
      · exact Or.inl (of_decide_eq_true h2)
      · exact Or.inr (of_decide_eq_true h2)
    · simp [pSep, hc] at h

theorem pOptSep_nc4 {l : List Char}
    (hr : ∀ d, (pOptSep l).head? = some d → isDig d = false)
    (hnc : noComma4 (pOptSep l) = true) :
    noComma4 l = true ∧ ∀ d, l.head? = some d → isDig d = false := by
  cases l with
  | nil => exact ⟨rfl, fun d hd => by cases hd⟩
  | cons c rest =>
    by_cases hc : (c = ',' || c = '.') = true
    · have hpo : pOptSep (c :: rest) = rest := by simp [pOptSep, hc]
      rw [hpo] at hr hnc
      have hcd : isDig c = false := by
        rcases or_eq_true_elim hc with h | h
        · rw [of_decide_eq_true h]; decide
        · rw [of_decide_eq_true h]; decide
      constructor
      · rcases or_eq_true_elim hc with h | h
        · rw [of_decide_eq_true h]
          exact nc4_cons_comma (by rw [takeWhile_not_head hr]; simp) hnc
        · rw [of_decide_eq_true h]
          exact nc4_cons_ne (by decide) hnc
      · intro d hd
        have hcd2 : c = d := by simpa using hd
        rw [← hcd2]
        exact hcd
    · have hpo : pOptSep (c :: rest) = c :: rest := by simp [pOptSep, hc]
      rw [hpo] at hr hnc
      exact ⟨hnc, hr⟩

theorem pTime_nc4 {l r : List Char} (hpt : pTime l = some r)
    (hr : ∀ d, r.head? = some d → isDig d = false)
    (hnc : noComma4 r = true) : noComma4 l = true := by
  unfold pTime at hpt
  cases h12 : pD12 l with
  | none => rw [h12] at hpt; simp at hpt
  | some l1 =>
    rw [h12] at hpt
    simp only [Option.some_bind] at hpt
    cases hc1 : pCh ':' l1 with
    | none => rw [hc1] at hpt; simp at hpt
    | some l2 =>
      rw [hc1] at hpt
      simp only [Option.some_bind] at hpt
      cases hd2 : pD2 l2 with
      | none => rw [hd2] at hpt; simp at hpt
      | some l3 =>
        rw [hd2] at hpt
        simp only [Option.some_bind] at hpt
        cases ho : pOptSecs l3 with
        | none => rw [ho] at hpt; simp at hpt
        | some l5 =>
          rw [ho] at hpt
          simp only [Option.some_bind] at hpt
          cases hs : pSep l5 with
          | none => rw [hs] at hpt; simp at hpt
          | some l6 =>
            rw [hs] at hpt
            simp only [Option.some_bind] at hpt
            cases h3 : pD3 l6 with
            | none => rw [h3] at hpt; simp at hpt
            | some l7 =>
              rw [h3] at hpt
              simp only [Option.some_bind] at hpt
              have hro : pOptSep l7 = r := Option.some_inj.mp hpt
              rw [← hro] at hr hnc
              obtain ⟨hl7nc, hl7hd⟩ := pOptSep_nc4 hr hnc
              obtain ⟨f1, f2, f3, hf1, hf2, hf3, hl6⟩ := pD3_sound h3
              obtain ⟨sep, hsep, hl5⟩ := pSep_sound hs
              have hl5nc : noComma4 l5 = true := by
                rw [hl5, hl6]
                exact nc4_sep_digits hsep hf1 hf2 hf3 hl7hd hl7nc
              have hl3nc : noComma4 l3 = true := by
                rcases pOptSecs_sound ho with h | ⟨s1, s2, hs1, hs2, hl3⟩
                · rw [h]; exact hl5nc
                · rw [hl3]
                  exact nc4_cons_ne (by decide) (nc4_cons_ne (isDig_ne_comma hs1)
                    (nc4_cons_ne (isDig_ne_comma hs2) hl5nc))
              obtain ⟨m1, m2, hm1, hm2, hl2⟩ := pD2_sound hd2
              have hl2nc : noComma4 l2 = true := by
                rw [hl2]
                exact nc4_cons_ne (isDig_ne_comma hm1)
                  (nc4_cons_ne (isDig_ne_comma hm2) hl3nc)
              have hl1nc : noComma4 l1 = true := by
                rw [pCh_sound hc1]
                exact nc4_cons_ne (by decide) hl2nc
              rcases pD12_sound h12 with ⟨d, hd, hl⟩ | ⟨d, e, hd, he, hl⟩
              · rw [hl]
                exact nc4_cons_ne (isDig_ne_comma hd) hl1nc
              · rw [hl]
                exact nc4_cons_ne (isDig_ne_comma hd)
                  (nc4_cons_ne (isDig_ne_comma he) hl1nc)

theorem matchTs_nc4 {l : List Char} (h : matchTs l = true) : noComma4 l = true := by
  unfold matchTs at h
  split at h
  · cases h
  · rename_i l1 hpt
    split at h
    · rename_i l2 hdw
      split at h
      · rename_i hpt2
        have hnc2 : noComma4 (l2.dropWhile isJsWs) = true :=
          pTime_nc4 hpt2 (fun d hd => by cases hd) rfl
        have hncl2 : noComma4 l2 = true := by
          rw [← List.takeWhile_append_dropWhile (p := isJsWs) (l := l2)]
          exact nc4_no_comma_append
            (fun c hc => ws_ne_comma (List.mem_takeWhile_imp hc)) hnc2
        have hncl1 : noComma4 l1 = true := by
          rw [← List.takeWhile_append_dropWhile (p := isJsWs) (l := l1), hdw]
          exact nc4_no_comma_append
            (fun c hc => ws_ne_comma (List.mem_takeWhile_imp hc))
            (nc4_cons_ne (by decide) (nc4_cons_ne (by decide)
              (nc4_cons_ne (by decide) hncl2)))
        have hl1hd : ∀ d, l1.head? = some d → isDig d = false := by
          intro d hd
          cases hl1 : l1 with
          | nil => rw [hl1] at hd; cases hd
          | cons a t =>
            rw [hl1] at hd
            have had : a = d := by simpa using hd
            subst had
            by_cases hws : isJsWs a = true
            · exact ws_not_isDig hws
            · rw [hl1, List.dropWhile_cons, if_neg hws] at hdw
              injection hdw with ha ht
              rw [ha]
              decide
        exact pTime_nc4 hpt hl1hd hncl1
      · cases h
    · cases h

theorem tw_le_append {p : Char → Bool} : ∀ x y : List Char,
    (x.takeWhile p).length ≤ ((x ++ y).takeWhile p).length
  | [], y => by simp
  | a :: x', y => by
    rw [List.cons_append, List.takeWhile_cons, List.takeWhile_cons]
    by_cases ha : p a = true
    · rw [if_pos ha, if_pos ha]
      simpa using tw_le_append x' y
    · rw [if_neg ha, if_neg ha]

theorem nc4_dropLast : ∀ {l : List Char}, noComma4 l = true →
    noComma4 l.dropLast = true
  | [], _ => rfl
  | [_], _ => rfl
  | c :: b :: t, h => by
    rw [List.dropLast_cons₂]
    by_cases hc : c = ','
    · subst hc
      apply nc4_cons_comma ?_ (nc4_dropLast (nc4_tail h))
      have hb := nc4_comma_bound h
      have hsplit := List.dropLast_append_getLast (l := b :: t) (by simp)
      calc ((b :: t).dropLast.takeWhile isDig).length
          ≤ (((b :: t).dropLast ++
              [(b :: t).getLast (by simp)]).takeWhile isDig).length :=
            tw_le_append _ _
        _ = ((b :: t).takeWhile isDig).length := by rw [hsplit]
        _ ≤ 3 := hb
    · exact nc4_cons_ne hc (nc4_dropLast (nc4_tail h))

theorem nc4_rts {l : List Char} (h : noComma4 l = true) :
    noComma4 (removeTrailingSep l) = true := by
  unfold removeTrailingSep
  cases hgl : l.getLast? with
  | none => exact h
  | some e =>
    dsimp only
    by_cases hcond : (e = ',' || e = '.') = true
    · rw [if_pos hcond]
      exact nc4_dropLast h
    · rw [if_neg hcond]
      exact h

theorem arrowAhead_no_digits {l : List Char} (h : arrowAhead l = true) :
    l.takeWhile isDig = [] := by
  cases l with
  | nil => simp [arrowAhead] at h
  | cons c l' =>
    by_cases hws : isJsWs c = true
    · rw [List.takeWhile_cons, if_neg (by simp [ws_not_isDig hws])]
    · unfold arrowAhead at h
      rw [List.dropWhile_cons, if_neg hws] at h
      rw [List.takeWhile_cons]
      split at h
      · rename_i heq
        injection heq with hc ht
        rw [if_neg (by rw [hc]; decide)]
      · cases h

theorem tw_rsba_le : ∀ l : List Char,
    ((removeSepBeforeArrow l).takeWhile isDig).length ≤
      (l.takeWhile isDig).length
  | [] => Nat.le_refl _
  | c :: rest => by
    by_cases hcond : ((c = ',' || c = '.') && arrowAhead rest) = true
    · rw [rsba_eq, if_pos hcond]
      obtain ⟨hsep, harr⟩ : (c = ',' || c = '.') = true ∧ arrowAhead rest = true := by
        rw [Bool.and_eq_true] at hcond
        exact hcond
      have hcd : isDig c = false := by
        rcases or_eq_true_elim hsep with h | h
        · rw [of_decide_eq_true h]; decide
        · rw [of_decide_eq_true h]; decide
      rw [List.takeWhile_cons, if_neg (by simp [hcd]), arrowAhead_no_digits harr]
    · rw [rsba_eq, if_neg hcond, List.takeWhile_cons, List.takeWhile_cons]
      by_cases hd : isDig c = true
      · rw [if_pos hd, if_pos hd]
        simpa using tw_rsba_le rest
      · rw [if_neg hd, if_neg hd]

theorem nc4_rsba : ∀ {l : List Char}, noComma4 l = true →
    noComma4 (removeSepBeforeArrow l) = true
  | [], _ => rfl
  | c :: rest, h => by
    by_cases hcond : ((c = ',' || c = '.') && arrowAhead rest) = true
    · rw [rsba_eq, if_pos hcond]
      exact nc4_tail h
    · rw [rsba_eq, if_neg hcond]
      by_cases hc : c = ','
      · subst hc
        exact nc4_cons_comma (le_trans (tw_rsba_le rest) (nc4_comma_bound h))
          (nc4_rsba (nc4_tail h))
      · exact nc4_cons_ne hc (nc4_rsba (nc4_tail h))

theorem ctdE_cons_ne {c : Char} {rest : List Char} (hc : ¬(c = ',')) :
    commaToDotExact (c :: rest) = c :: commaToDotExact rest := by
  rcases rest with _ | ⟨d1, _ | ⟨d2, _ | ⟨d3, r⟩⟩⟩ <;> simp [commaToDotExact, hc]

theorem ctd_eq_exact : ∀ l : List Char, noComma4 l = true →
    commaToDot l = commaToDotExact l
  | [], _ => rfl
  | c :: rest, h => by
    by_cases hc : c = ','
    · subst hc
      rcases rest with _ | ⟨d1, _ | ⟨d2, _ | ⟨d3, r⟩⟩⟩
      · rfl
      · rw [show commaToDot [',', d1] = ',' :: commaToDot [d1] from by
            simp [commaToDot],
          show commaToDotExact [',', d1] = ',' :: commaToDotExact [d1] from by
            simp [commaToDotExact],
          ctd_eq_exact [d1] (nc4_tail h)]
      · rw [show commaToDot [',', d1, d2] = ',' :: commaToDot [d1, d2] from by
            simp [commaToDot],
          show commaToDotExact [',', d1, d2] = ',' :: commaToDotExact [d1, d2] from by
            simp [commaToDotExact],
          ctd_eq_exact [d1, d2] (nc4_tail h)]
      · by_cases hdig : (isDig d1 && isDig d2 && isDig d3) = true
        · obtain ⟨⟨h1, h2⟩, h3⟩ : (isDig d1 = true ∧ isDig d2 = true) ∧
              isDig d3 = true := by
            rw [Bool.and_eq_true, Bool.and_eq_true] at hdig
            exact hdig
          have hb := nc4_comma_bound h
          rw [List.takeWhile_cons, if_pos (by simp [h1]), List.takeWhile_cons,
            if_pos (by simp [h2]), List.takeWhile_cons, if_pos (by simp [h3])] at hb
          simp only [List.length_cons] at hb
          have hrd : ∀ d, r.head? = some d → isDig d = false := by
            intro d hd
            cases hr : r with
            | nil => rw [hr] at hd; cases hd
            | cons x r' =>
              rw [hr] at hd
              have hxd : x = d := by simpa using hd
              rw [hr] at hb
              by_contra hdd
              have hdd2 : isDig x = true := by
                rw [hxd]
                simpa using hdd
              rw [List.takeWhile_cons, if_pos (by simp [hdd2])] at hb
              simp only [List.length_cons] at hb
              omega
          have hexact : (!(r.head?.elim false isDig)) = true := by
            cases hre : r.head? with
            | none => rfl
            | some x => simp [hrd x hre]
          rw [show commaToDot (',' :: d1 :: d2 :: d3 :: r) =
              '.' :: d1 :: d2 :: d3 :: commaToDot r from by simp [commaToDot, hdig],
            show commaToDotExact (',' :: d1 :: d2 :: d3 :: r) =
              '.' :: d1 :: d2 :: d3 :: commaToDotExact r from by
              simp [commaToDotExact, hdig, hexact],
            ctd_eq_exact r (nc4_tail (nc4_tail (nc4_tail (nc4_tail h))))]
        · rw [show commaToDot (',' :: d1 :: d2 :: d3 :: r) =
              ',' :: commaToDot (d1 :: d2 :: d3 :: r) from by simp [commaToDot, hdig],
            show commaToDotExact (',' :: d1 :: d2 :: d3 :: r) =
              ',' :: commaToDotExact (d1 :: d2 :: d3 :: r) from by
              simp [commaToDotExact, hdig],
            ctd_eq_exact (d1 :: d2 :: d3 :: r) (nc4_tail h)]
    · rw [ctd_cons_ne hc, ctdE_cons_ne hc, ctd_eq_exact rest (nc4_tail h)]

/-! ## Claim theorems (concrete claims) -/

/-- Claim C1: normalizing the two-cue SubRip example yields exactly the
WEBVTT header, a blank line, the two cues with their sequence numbers
removed and comma milliseconds converted to dots, terminated by exactly
one blank line. -/
theorem claim1_example_normalization : parseToVTT exSrtInput = exVttOutput := by
  decide

/-- Claim C9: the timestamp matcher is anchored to the whole trimmed line,
so a WebVTT timestamp line followed by cue settings does not match, and a
block whose only candidate line carries such settings is absent from the
output entirely. -/
theorem claim9_anchored_matcher :
    matchTs exSettingsLine.data = false ∧
      parseToVTT exSettingsBlock = "WEBVTT\n\n" := by
  constructor
  · decide
  · decide

/-- Claim C10: `constructUrl` always places an `id` query parameter first;
when both catalog ids are absent, or a falsy `tmdb_id` falls through to an
absent `imdb_id`, the value is the literal string `undefined`; a falsy
`tmdb_id` with an `imdb_id` present falls through to the `imdb_id`; no
local validation error is possible (the function is total). -/
theorem claim10_id_always_present :
    (∀ p : SearchSubtitlesParams,
      (constructUrlQuery p).head? = some ("id", idParamValue p.tmdb_id p.imdb_id)) ∧
    idParamValue none none = "undefined" ∧
    idParamValue (some 0) none = "undefined" ∧
    idParamValue (some 0) (some 525) = "525" := by
  refine ⟨fun p => ?_, rfl, rfl, rfl⟩
  simp [constructUrlQuery]

/-- Claim C4 counterexample: with VTT conversion requested and a search
that returns zero descriptors, the composed operation does not fail — it
returns the empty descriptor list as a plain success, without VTT
content. -/
theorem claim4_cex_empty_list_is_success :
    searchSubtitlesM vttTrueParams (.success []) (.success "") = .ok (.plain []) := by
  rfl

/-- Claim C4 (amended): when the search returns zero descriptors and VTT
conversion was requested, `searchSubtitles` returns the empty descriptor
list as a plain success rather than failing explicitly. -/
theorem claim4_empty_list_no_failure
    (p : SearchSubtitlesParams) (cR : FetchResult String)
    (_h : p.parseVTT = some true) :
    searchSubtitlesM p (.success []) cR = .ok (.plain []) := by
  simp [searchSubtitlesM, fetchSubtitlesM]

theorem claim4_empty_list_no_failure_witness :
    searchSubtitlesM vttTrueParams (.success []) (.success "x") = .ok (.plain []) :=
  claim4_empty_list_no_failure vttTrueParams (.success "x") rfl

/-- Claim C8 counterexample: a transport error during the search fetch and
the same transport error during the content fetch surface as the *same*
wrapped error, so the wrapping does not identify which stage failed; and
the surfaced error differs from the original, so transport errors are not
propagated unchanged. -/
theorem claim8_cex_stage_indistinguishable :
    searchSubtitlesM vttTrueParams (.transportError "fetch failed") (.success "") =
      searchSubtitlesM vttTrueParams (.success [sampleSub]) (.transportError "fetch failed") ∧
    searchSubtitlesM vttTrueParams (.transportError "fetch failed") (.success "") =
      .error "Error fetching subtitles: fetch failed" ∧
    ¬("Error fetching subtitles: fetch failed" = "fetch failed") := by
  refine ⟨rfl, rfl, by decide⟩

/-- Claim C8 (amended): every failure from either network call surfaces
through `searchSubtitles` as a single error wrapped in the one message
`Error fetching subtitles: <original>`; only a non-2xx content fetch
additionally embeds `Failed to fetch subtitle content: <status>`, so
transport and deserialization errors are wrapped identically for both
stages and are not propagated unchanged. -/
theorem claim8_error_wrapping
    (p : SearchSubtitlesParams) (subs : List SubtitleData) (e : String) (s : Nat)
    (cR : FetchResult String)
    (hv : p.parseVTT = some true) (hs : 0 < subs.length) :
    searchSubtitlesM p (.transportError e) cR =
      .error ("Error fetching subtitles: " ++ e) ∧
    searchSubtitlesM p (.badBody e) cR =
      .error ("Error fetching subtitles: " ++ e) ∧
    searchSubtitlesM p (.success subs) (.httpError s) =
      .error ("Error fetching subtitles: " ++
        ("Failed to fetch subtitle content: " ++ toString s)) ∧
    searchSubtitlesM p (.success subs) (.transportError e) =
      .error ("Error fetching subtitles: " ++ e) := by
  refine ⟨rfl, rfl, ?_, ?_⟩ <;>
    simp [searchSubtitlesM, fetchSubtitlesM, parseToVTTM, hv, hs]

theorem claim8_error_wrapping_witness :
    searchSubtitlesM vttTrueParams (.success [sampleSub]) (.transportError "fetch failed") =
      .error ("Error fetching subtitles: " ++ "fetch failed") :=
  (claim8_error_wrapping vttTrueParams [sampleSub] "fetch failed" 404
    (.transportError "fetch failed") rfl (by decide)).2.2.2

/-- Claim C2: for every input, the normalizer's output starts with the
literal header `WEBVTT`, ends with exactly one blank line (it is some text
whose last character is not a newline, followed by exactly two newlines),
and contains no run of three or more consecutive newlines. -/
theorem claim2_wellformed_output (content : List Char) :
    (∃ r, parseToVTTtext content = wChars ++ r) ∧
    (∃ b, parseToVTTtext content = b ++ ['\n', '\n'] ∧ b.getLast? ≠ some '\n') ∧
    noTriple (parseToVTTtext content) = true := by
  have hok := emit_all_chunkOk content
  have hchunks := chunksText_noTriple _ hok
  obtain ⟨b, w, e, hsplit, hbw, hww, hbe, hwe⟩ := header_chunks_split _ hok
  rw [parse_assembled content]
  refine ⟨⟨'\n' :: '\n' :: chunksText _, rfl⟩, ⟨b, hsplit, ?_⟩,
    noTriple_header hchunks.2 hchunks.1⟩
  rw [hbe]
  intro hcon
  exact not_ws_ne_nl hwe (by simpa using hcon)

/-- Claim C6: the cues of the output are exactly the cues obtained by
processing the input's blocks one by one in input order (`List.filterMap`
keeps the order of the block list), assembled after the header each
followed by one blank line; normalization never reorders cues, whatever
their timestamps are. -/
theorem claim6_cues_in_block_order (content : List Char) :
    parseToVTTtext content =
      vttHeader ++ chunksText
        ((splitBlocks (trimWs (fixEol content))).filterMap emitBlock) :=
  parse_assembled content

/-- Claim C7: when no cleaned line of any block matches the timestamp-pair
pattern, the output is exactly the header plus the trailing blank line and
no cues. -/
theorem claim7_no_match_header_only (content : List Char)
    (h : ((splitBlocks (trimWs (fixEol content))).all
      (fun b => (cleanLines b).all (fun l => !matchTs l))) = true) :
    parseToVTTtext content = vttHeader := by
  rw [parse_assembled content]
  have hall : ∀ b ∈ splitBlocks (trimWs (fixEol content)), emitBlock b = none := by
    intro b hb
    have hlines := (List.all_eq_true.mp h) b hb
    have hnone : findTs (cleanLines b) = none :=
      findTs_none (fun x hx => by simpa using (List.all_eq_true.mp hlines) x hx)
    unfold emitBlock
    by_cases hlen : (cleanLines b).length < 2
    · rw [if_pos hlen]
    · rw [if_neg hlen, hnone]
  rw [List.filterMap_eq_nil_iff.mpr hall]
  simp [chunksText]

theorem claim7_no_match_header_only_witness :
    ((splitBlocks (trimWs (fixEol exNoTsInput.data))).all
      (fun b => (cleanLines b).all (fun l => !matchTs l))) = true ∧
    parseToVTTtext exNoTsInput.data = vttHeader :=
  ⟨by decide, claim7_no_match_header_only exNoTsInput.data (by decide)⟩

/-- Claim C3 counterexample: a document that is canonical per the spec's
data model (header, one cue, text lines non-empty, no *trailing*
sequence-number line) but whose middle text line consists solely of
digits is not a fixed point of normalization — the digit-only line is
dropped by the sequence-number filter. -/
theorem claim3_cex_digit_line_dropped :
    parseToVTT exCanonicalDigitLine = exDigitLineDropped ∧
      ¬(exDigitLineDropped = exCanonicalDigitLine) := by
  refine ⟨by decide, by decide⟩

/-- Claim C3 (amended): normalization is idempotent on already-canonical
VttDocument text provided no cue text line consists solely of digits: the
rendered text of any list of well-formed cues is a fixed point of the
normalizer. -/
theorem claim3_canonical_idempotent (cues : List VttCue)
    (h : cues.all VttCue.wfNoDigitLines = true) :
    parseToVTTtext (renderDoc cues) = renderDoc cues := by
  have hall : ∀ c ∈ cues, c.wfNoDigitLines = true := List.all_eq_true.mp h
  have hwf : ∀ c ∈ cues, c.wf = true := fun c hc => (wfNoDigit_parts (hall c hc)).1
  have h0 : fixEol (renderDoc cues) = renderDoc cues :=
    fixEol_id (renderDoc_no_cr hwf)
  have hsepeq : renderDoc cues =
      sepBlocks (wChars :: cues.map VttCue.body) ++ ['\n', '\n'] := by
    rw [sepBlocks_chunks]
    rfl
  have hblocksOk : ∀ x ∈ wChars :: cues.map VttCue.body, blockNice x := by
    intro x hx
    rcases List.mem_cons.mp hx with hx | hx
    · rw [hx]
      exact blockNice_wChars
    · obtain ⟨c, hc, rfl⟩ := List.mem_map.mp hx
      exact body_blockNice (hwf c hc)
  have hlastOk : ∀ x ∈ wChars :: cues.map VttCue.body,
      x ≠ [] ∧ ∃ e, x.getLast? = some e ∧ isJsWs e = false := by
    intro x hx
    rcases List.mem_cons.mp hx with hx2 | hx2
    · rw [hx2]
      exact ⟨by decide, 'T', by decide, by decide⟩
    · obtain ⟨c, hc, rfl⟩ := List.mem_map.mp hx2
      exact ⟨(hblocksOk _ hx).1, body_getLast (hwf c hc)⟩
  obtain ⟨e, he, hwe⟩ := sepBlocks_getLast _ (by simp) hlastOk
  have htrim : trimWs (renderDoc cues) =
      sepBlocks (wChars :: cues.map VttCue.body) := by
    rw [hsepeq]
    exact trimWs_append_nl2
      (by rw [sepBlocks_head (by decide)]; rfl) (by decide) he hwe
  rw [parse_assembled, h0, htrim,
    splitBlocks_sepBlocks _ (by simp) hblocksOk, List.filterMap_cons]
  have hw : emitBlock wChars = none := by decide
  simp only [hw]
  rw [filterMap_emit_map cues hall]
  rfl

/-- Claim C5: on every line accepted by the timestamp matcher, the code's
normalization of that line (remove the separator before the arrow, remove
a trailing separator at the end, then globally convert each comma followed
by three digits to a dot) coincides with the spec's description in which
the comma rule demands exactly three following digits; and the out-of-range
line 25:99:99.999 --> 26:00:00.000 still matches and is normalized to
itself verbatim — no numeric validation or clamping takes place. -/
theorem claim5_matched_line_normalization :
    (∀ l : List Char, matchTs l = true →
        normalizeTsLine l = specNormalizeTsLine l) ∧
      matchTs exNoValidation.data = true ∧
      normalizeTsLine exNoValidation.data = exNoValidation.data := by
  refine ⟨?_, by decide, by decide⟩
  intro l hm
  unfold normalizeTsLine specNormalizeTsLine
  exact ctd_eq_exact _ (nc4_rts (nc4_rsba (matchTs_nc4 hm)))

theorem claim5_matched_line_normalization_witness :
    matchTs exCommaLine.data = true ∧
      normalizeTsLine exCommaLine.data = specNormalizeTsLine exCommaLine.data :=
  ⟨by decide, claim5_matched_line_normalization.1 exCommaLine.data (by decide)⟩

theorem claim3_canonical_idempotent_witness :
    [exCanonicalCue].all VttCue.wfNoDigitLines = true ∧
      parseToVTTtext (renderDoc [exCanonicalCue]) = renderDoc [exCanonicalCue] :=
  ⟨by decide, claim3_canonical_idempotent [exCanonicalCue] (by decide)⟩

end WyzieLib
